import Mathlib

/-!
Verification of the self-balancing binary search tree (AVL tree with
incrementally-maintained balance factors) implemented in
src/utils/binary_search_tree.py.

The embedding is shallow: each Python method of BSTree.Node / BSTree is
translated into a Lean function over an inductive tree type.  Python's
`Optional[BSTree.Node]` is modelled by the `Tree` type itself, with
`Tree.leaf` standing for `None`.  Values are modelled as `Int` (the tree
stores mutually comparable values); the public API takes `Option Int`
so that Python's `None` argument can be represented.  Methods that can
raise are modelled with `Except String`; calling a node method on an
absent node (an `AttributeError` in Python) is an error value as well.
-/

namespace BSTpy

/-- A node of the tree: `BSTree.Node` with `value`, `bf`, `left`, `right`.
`leaf` stands for Python's `None` (an absent subtree). -/
inductive Tree where
  | leaf : Tree
  | node (value : Int) (bf : Int) (left : Tree) (right : Tree) : Tree
deriving DecidableEq

namespace Tree

/-- `BSTree.Node.__len__`: `1 + len(left) + len(right)` with absent
children contributing 0.  (`BSTree.__len__` returns 0 on an empty tree,
which is the `leaf` case here.) -/
def size : Tree → Nat
  | .leaf => 0
  | .node _ _ l r => 1 + l.size + r.size

/-- `BSTree.Node.__iter__`: in-order traversal (left, value, right).
`BSTree.__iter__` yields nothing on the empty tree. -/
def toList : Tree → List Int
  | .leaf => []
  | .node v _ l r => l.toList ++ v :: r.toList

/-- `BSTree.Node.__reversed__`: reverse in-order traversal. -/
def toListRev : Tree → List Int
  | .leaf => []
  | .node v _ l r => r.toListRev ++ v :: l.toListRev

/-- `BSTree.Node.height`: absent children default to height `-1`,
a node's height is `max(left_height, right_height) + 1`.  We extend the
function to the absent case with that same `-1` default. -/
def height : Tree → Int
  | .leaf => -1
  | .node _ _ l r => max l.height r.height + 1

/-- The `bf` attribute of a node (0 on the absent case, never used there). -/
def bfOf : Tree → Int
  | .leaf => 0
  | .node _ bf _ _ => bf

/-- The `value` attribute of a node (0 on the absent case, never used there). -/
def valueOf : Tree → Int
  | .leaf => 0
  | .node v _ _ _ => v

/-- `BSTree.Node.find_max`: iterative descent to the rightmost node. -/
def find_max : Tree → Int
  | .leaf => 0
  | .node v _ _ .leaf => v
  | .node _ _ _ (.node rv rbf rl rr) => find_max (.node rv rbf rl rr)

/-- `BSTree.Node.find_min`: iterative descent to the leftmost node. -/
def find_min : Tree → Int
  | .leaf => 0
  | .node v _ .leaf _ => v
  | .node _ _ (.node lv lbf ll lr) _ => find_min (.node lv lbf ll lr)

/-- `BSTree.Node.rotate_left`:
```
b = self.right                      # ValueError if absent
self.right = b.left
b.left = self
self.bf -= 1 + max(b.bf, 0)
b.bf -= 1 - min(self.bf, 0)         # uses the updated self.bf
return b
``` -/
def rotate_left : Tree → Except String Tree
  | .leaf => .error "AttributeError"
  | .node value bf l r =>
    match r with
    | .leaf => .error "cannot left-rotate node without right child"
    | .node bv bbf bl br =>
      let self_bf := bf - (1 + max bbf 0)
      let b_bf := bbf - (1 - min self_bf 0)
      .ok (.node bv b_bf (.node value self_bf l bl) br)

/-- `BSTree.Node.rotate_right`:
```
b = self.left                       # ValueError if absent
self.left = b.right
b.right = self
self.bf += 1 - min(b.bf, 0)
b.bf += 1 + max(self.bf, 0)         # uses the updated self.bf
return b
``` -/
def rotate_right : Tree → Except String Tree
  | .leaf => .error "AttributeError"
  | .node value bf l r =>
    match l with
    | .leaf => .error "cannot right-rotate node without left child"
    | .node bv bbf bl br =>
      let self_bf := bf + (1 - min bbf 0)
      let b_bf := bbf + (1 + max self_bf 0)
      .ok (.node bv b_bf bl (.node value self_bf br r))

/-- `BSTree.Node.balance`: dispatches on `bf` into the four rotation
cases (the `assert` statements are modelled as errors). -/
def balance : Tree → Except String Tree
  | .leaf => .error "AttributeError"
  | .node value bf l r =>
    if bf < -1 then
      match l with
      | .leaf => .error "AssertionError"
      | .node lv lbf ll lr =>
        if lbf ≤ 0 then
          (Tree.node value bf (.node lv lbf ll lr) r).rotate_right
        else
          match (Tree.node lv lbf ll lr).rotate_left with
          | .error e => .error e
          | .ok l2 => (Tree.node value bf l2 r).rotate_right
    else if bf > 1 then
      match r with
      | .leaf => .error "AssertionError"
      | .node rv rbf rl rr =>
        if rbf ≥ 0 then
          (Tree.node value bf l (.node rv rbf rl rr)).rotate_left
        else
          match (Tree.node rv rbf rl rr).rotate_right with
          | .error e => .error e
          | .ok r2 => (Tree.node value bf l r2).rotate_left
    else .ok (.node value bf l r)

/-- The height-growth test used by `BSTree.Node.insert` after a
recursive insert into a child: the child's balance factor either got
more non-positive or more non-negative. -/
def grewCond (old new : Int) : Bool :=
  decide ((old ≤ 0 ∧ new < old) ∨ (old ≥ 0 ∧ new > old))

/-- The height-decrease test used by `BSTree.Node.delete` after a
recursive delete into a child: the child no longer exists, or its
balance factor changed to 0 from ±1. -/
def shrankCond (old : Int) (t : Tree) : Bool :=
  decide (t = Tree.leaf ∨ (old.natAbs = 1 ∧ t.bfOf = 0))

/-- `BSTree.Node.insert`: raises `RuntimeError` on a duplicate value,
otherwise recursively inserts, adjusts `bf` from the child's `bf`
transition, and rebalances. -/
def insertN : Tree → Int → Except String Tree
  | .leaf, _ => .error "AttributeError"
  | .node value bf l r, val =>
    if val = value then .error "value is already present"
    else if val < value then
      match l with
      | .leaf => (Tree.node value (bf - 1) (.node val 0 .leaf .leaf) r).balance
      | .node lv lbf ll lr =>
        ((Tree.node lv lbf ll lr).insertN val).bind fun l2 =>
          (Tree.node value (if grewCond lbf l2.bfOf then bf - 1 else bf) l2 r).balance
    else if val > value then
      match r with
      | .leaf => (Tree.node value (bf + 1) l (.node val 0 .leaf .leaf)).balance
      | .node rv rbf rl rr =>
        ((Tree.node rv rbf rl rr).insertN val).bind fun r2 =>
          (Tree.node value (if grewCond rbf r2.bfOf then bf + 1 else bf) l r2).balance
    else (Tree.node value bf l r).balance

/-- `BSTree.Node.delete`: raises `RuntimeError` when the value is
absent; a node with at most one child is elided; a node with two
children takes the value of its in-order predecessor (`find_max` of the
left subtree) and deletes that value from the left subtree. -/
def deleteN : Tree → Int → Except String Tree
  | .leaf, _ => .error "AttributeError"
  | .node value bf l r, val =>
    if val < value then
      match l with
      | .leaf => .error "value is not present"
      | .node lv lbf ll lr =>
        ((Tree.node lv lbf ll lr).deleteN val).bind fun l2 =>
          (Tree.node value (if shrankCond lbf l2 then bf + 1 else bf) l2 r).balance
    else if val > value then
      match r with
      | .leaf => .error "value is not present"
      | .node rv rbf rl rr =>
        ((Tree.node rv rbf rl rr).deleteN val).bind fun r2 =>
          (Tree.node value (if shrankCond rbf r2 then bf - 1 else bf) l r2).balance
    else
      match l with
      | .leaf => .ok r
      | .node lv lbf ll lr =>
        match r with
        | .leaf => .ok (.node lv lbf ll lr)
        | .node rv rbf rl rr =>
          ((Tree.node lv lbf ll lr).deleteN ((Tree.node lv lbf ll lr).find_max)).bind
            fun l2 =>
              (Tree.node ((Tree.node lv lbf ll lr).find_max)
                (if shrankCond lbf l2 then bf + 1 else bf) l2
                (.node rv rbf rl rr)).balance

end Tree

namespace BSTree

/-- `BSTree.insert`: rejects `None`, creates a root for an empty tree,
otherwise delegates to `Node.insert` and converts any exception into a
`False` return.  The returned pair is (boolean result, new tree state). -/
def insert (t : Tree) (val : Option Int) : Bool × Tree :=
  match val with
  | none => (false, t)
  | some v =>
    match t with
    | .leaf => (true, .node v 0 .leaf .leaf)
    | .node value bf l r =>
      match (Tree.node value bf l r).insertN v with
      | .error _ => (false, Tree.node value bf l r)
      | .ok t2 => (true, t2)

/-- `BSTree.delete`: rejects `None` and the empty tree, otherwise
delegates to `Node.delete` and converts any exception into a `False`
return.  The returned pair is (boolean result, new tree state). -/
def delete (t : Tree) (val : Option Int) : Bool × Tree :=
  match val with
  | none => (false, t)
  | some v =>
    match t with
    | .leaf => (false, t)
    | .node value bf l r =>
      match (Tree.node value bf l r).deleteN v with
      | .error _ => (false, Tree.node value bf l r)
      | .ok t2 => (true, t2)

/-- `BSTree.__contains__`: iterative descent by order comparisons. -/
def contains (t : Tree) (val : Int) : Bool :=
  match t with
  | .leaf => false
  | .node v _ l r =>
    if val < v then contains l val
    else if val > v then contains r val
    else true

/-- The loop of `BSTree.__getitem__`:
`for i, val in enumerate(seq): if (-i - 1 if pos < 0 else i) == pos: return val`. -/
def getLoop : List Int → Int → Int → Option Int
  | [], _, _ => none
  | v :: rest, i, pos =>
    if (if pos < 0 then -i - 1 else i) = pos then some v
    else getLoop rest (i + 1) pos

/-- `BSTree.__getitem__`: enumerates the reverse traversal for negative
positions and the forward traversal otherwise; raises `IndexError` when
the loop finds no match. -/
def getItem (t : Tree) (pos : Int) : Except String Int :=
  match getLoop (if pos < 0 then t.toListRev else t.toList) 0 pos with
  | some v => .ok v
  | none => .error "binary search tree index out of range"

/-- `BSTree.__setitem__`: `self.delete(self[pos]); self.insert(val)`,
both boolean results discarded.  The pair is (raised-or-ok, new tree
state); when `self[pos]` raises, no mutation has happened yet. -/
def setItem (t : Tree) (pos : Int) (val : Option Int) : Except String Unit × Tree :=
  match getItem t pos with
  | .error e => (.error e, t)
  | .ok old =>
    let t1 := (delete t (some old)).2
    let t2 := (insert t1 val).2
    (.ok (), t2)

/-- The loop of `BSTree.index`: forward enumeration, first match wins. -/
def indexLoop : List Int → Int → Int → Option Int
  | [], _, _ => none
  | v :: rest, i, val => if v = val then some i else indexLoop rest (i + 1) val

/-- `BSTree.index`: raises `ValueError` when the value is absent. -/
def index (t : Tree) (val : Int) : Except String Int :=
  match indexLoop t.toList 0 val with
  | some i => .ok i
  | none => .error "is not in binary search tree"

/-- `BSTree.__init__`: starts from an empty root and inserts every
element of the iterable, discarding each boolean result. -/
def ofList (l : List (Option Int)) : Tree :=
  l.foldl (fun t v => (insert t v).2) .leaf

end BSTree

/-- The balance part of the data-model invariant: every node's stored
`bf` equals `height(right) - height(left)` recomputed from scratch. -/
def Tree.bfCorrect : Tree → Bool
  | .leaf => true
  | .node _ bf l r =>
    (bf == r.height - l.height) && l.bfCorrect && r.bfCorrect

/-- The AVL part of the data-model invariant: `|bf| ≤ 1` at every node. -/
def Tree.balancedB : Tree → Bool
  | .leaf => true
  | .node _ bf l r => decide (bf.natAbs ≤ 1) && l.balancedB && r.balancedB

/-- Structural balance invariant (correct and small balance factors). -/
def AvlT (t : Tree) : Prop := t.bfCorrect = true ∧ t.balancedB = true

/-- Full data-model invariant: order invariant plus balance invariant. -/
def Inv (t : Tree) : Prop :=
  List.Sorted (· < ·) t.toList ∧ AvlT t

/-- Tree states reachable from the empty tree through the public
`insert`/`delete` API (with arbitrary, possibly `None`, arguments). -/
inductive Reachable : Tree → Prop where
  | empty : Reachable .leaf
  | ins (v : Option Int) {t : Tree} : Reachable t → Reachable (BSTree.insert t v).2
  | del (v : Option Int) {t : Tree} : Reachable t → Reachable (BSTree.delete t v).2

end BSTpy

namespace BSTpy

@[simp] theorem Tree.toList_leaf : Tree.leaf.toList = [] := rfl

@[simp] theorem Tree.toList_node (v bf : Int) (l r : Tree) :
    (Tree.node v bf l r).toList = l.toList ++ v :: r.toList := rfl

@[simp] theorem Tree.height_leaf : Tree.leaf.height = -1 := rfl

@[simp] theorem Tree.height_node (v bf : Int) (l r : Tree) :
    (Tree.node v bf l r).height = max l.height r.height + 1 := rfl

@[simp] theorem Tree.bfOf_leaf : Tree.leaf.bfOf = 0 := rfl

@[simp] theorem Tree.bfOf_node (v bf : Int) (l r : Tree) :
    (Tree.node v bf l r).bfOf = bf := rfl

theorem Tree.height_ge (t : Tree) : -1 ≤ t.height := by
  induction t with
  | leaf => simp
  | node v bf l r ihl ihr => simp; omega

theorem Tree.height_nonneg {t : Tree} (h : t ≠ .leaf) : 0 ≤ t.height := by
  cases t with
  | leaf => exact absurd rfl h
  | node v bf l r =>
    have h1 := l.height_ge
    have h2 := r.height_ge
    simp
    omega

theorem Tree.eq_leaf_of_height {t : Tree} (h : t.height ≤ -1) : t = .leaf := by
  cases t with
  | leaf => rfl
  | node v bf l r =>
    have h1 := l.height_ge
    have h2 := r.height_ge
    simp at h
    omega

theorem AvlT_leaf : AvlT Tree.leaf := ⟨rfl, rfl⟩

theorem AvlT_node_iff (v bf : Int) (l r : Tree) :
    AvlT (Tree.node v bf l r) ↔
      bf = r.height - l.height ∧ bf.natAbs ≤ 1 ∧ AvlT l ∧ AvlT r := by
  simp only [AvlT, Tree.bfCorrect, Tree.balancedB, Bool.and_eq_true, beq_iff_eq,
    decide_eq_true_eq]
  tauto

theorem AvlT.bf_small {t : Tree} (h : AvlT t) : t.bfOf.natAbs ≤ 1 := by
  cases t with
  | leaf => simp
  | node v bf l r => exact ((AvlT_node_iff v bf l r).mp h).2.1

theorem sorted_node_iff (v bf : Int) (l r : Tree) :
    List.Sorted (· < ·) (Tree.node v bf l r).toList ↔
      (List.Sorted (· < ·) l.toList ∧ List.Sorted (· < ·) r.toList ∧
       (∀ x ∈ l.toList, x < v) ∧ (∀ y ∈ r.toList, v < y)) := by
  simp only [Tree.toList_node, List.Sorted, List.pairwise_append, List.pairwise_cons,
    List.mem_cons]
  constructor
  · rintro ⟨hl, ⟨hv, hr⟩, hx⟩
    exact ⟨hl, hr, fun x hx2 => hx x hx2 v (Or.inl rfl), hv⟩
  · rintro ⟨hl, hr, hlv, hrv⟩
    refine ⟨hl, ⟨hrv, hr⟩, fun x hx y hy => ?_⟩
    rcases hy with rfl | hy
    · exact hlv x hx
    · exact lt_trans (hlv x hx) (hrv y hy)

theorem mem_node_iff (x v bf : Int) (l r : Tree) :
    x ∈ (Tree.node v bf l r).toList ↔ x ∈ l.toList ∨ x = v ∨ x ∈ r.toList := by
  simp [Tree.toList_node]

/-- `balance` is the identity on a node whose balance factor is already
in range. -/
theorem Tree.balance_id (value bf : Int) (l r : Tree) (h : bf.natAbs ≤ 1) :
    (Tree.node value bf l r).balance = .ok (.node value bf l r) := by
  have h1 : ¬ bf < -1 := by omega
  have h2 : ¬ bf > 1 := by omega
  simp [Tree.balance, h1, h2]

end BSTpy

namespace BSTpy

/-- Rebalancing a node with `bf = -2` (left subtree two taller): the
left-left or left-right rotation case fires, never fails, preserves the
in-order traversal, restores the balance invariant, and yields a root
whose height and balance factor are determined by the left child's
pre-rotation balance factor. -/
theorem balance_neg2 (value bf : Int) (l r : Tree)
    (hl : AvlT l) (hr : AvlT r) (hbf : bf = r.height - l.height)
    (h2 : bf = -2) :
    ∃ u, (Tree.node value bf l r).balance = .ok u ∧ AvlT u ∧
      u.toList = l.toList ++ value :: r.toList ∧ u ≠ .leaf ∧
      ((l.bfOf = 0 ∧ u.height = l.height + 1 ∧ u.bfOf = 1) ∨
       (l.bfOf ≠ 0 ∧ u.height = l.height ∧ u.bfOf = 0)) := by
  subst h2
  have hrge := r.height_ge
  cases l with
  | leaf => exfalso; simp at hbf; omega
  | node lv lbf ll lr =>
    rw [AvlT_node_iff] at hl
    obtain ⟨hlbf, hlb1, hall, halr⟩ := hl
    have h1 := ll.height_ge
    have h2g := lr.height_ge
    simp only [Tree.height_node] at hbf
    by_cases hc : lbf ≤ 0
    · -- left-left case: single right rotation
      refine ⟨Tree.node lv (lbf + (1 + max ((-2) + (1 - min lbf 0)) 0)) ll
          (Tree.node value ((-2) + (1 - min lbf 0)) lr r), ?_, ?_, ?_, ?_, ?_⟩
      · simp [Tree.balance, Tree.rotate_right, hc]
      · rw [AvlT_node_iff, AvlT_node_iff]
        simp only [Tree.height_node]
        exact ⟨by omega, by omega, hall, by omega, by omega, halr, hr⟩
      · simp [List.append_assoc]
      · simp
      · simp only [Tree.bfOf_node, Tree.height_node]
        omega
    · -- left-right case: rotate the left child left, then rotate right
      cases lr with
      | leaf => exfalso; simp at hlbf; omega
      | node zv zbf zl zr =>
        rw [AvlT_node_iff] at halr
        obtain ⟨hzbf, hzb1, halzl, halzr⟩ := halr
        have h3 := zl.height_ge
        have h4 := zr.height_ge
        simp only [Tree.height_node] at hbf hlbf
        refine ⟨Tree.node zv
            ((zbf - (1 - min (lbf - (1 + max zbf 0)) 0)) +
              (1 + max ((-2) + (1 - min (zbf - (1 - min (lbf - (1 + max zbf 0)) 0)) 0)) 0))
            (Tree.node lv (lbf - (1 + max zbf 0)) ll zl)
            (Tree.node value
              ((-2) + (1 - min (zbf - (1 - min (lbf - (1 + max zbf 0)) 0)) 0)) zr r),
          ?_, ?_, ?_, ?_, ?_⟩
        · simp [Tree.balance, Tree.rotate_left, Tree.rotate_right, hc]
        · rw [AvlT_node_iff, AvlT_node_iff, AvlT_node_iff]
          simp only [Tree.height_node]
          exact ⟨by omega, by omega, ⟨by omega, by omega, hall, halzl⟩,
            by omega, by omega, halzr, hr⟩
        · simp [List.append_assoc]
        · simp
        · simp only [Tree.bfOf_node, Tree.height_node]
          omega

end BSTpy

namespace BSTpy

/-- Rebalancing a node with `bf = 2` (right subtree two taller): the
right-right or right-left rotation case fires, never fails, preserves
the in-order traversal, restores the balance invariant, and yields a
root whose height and balance factor are determined by the right
child's pre-rotation balance factor. -/
theorem balance_pos2 (value bf : Int) (l r : Tree)
    (hl : AvlT l) (hr : AvlT r) (hbf : bf = r.height - l.height)
    (h2 : bf = 2) :
    ∃ u, (Tree.node value bf l r).balance = .ok u ∧ AvlT u ∧
      u.toList = l.toList ++ value :: r.toList ∧ u ≠ .leaf ∧
      ((r.bfOf = 0 ∧ u.height = r.height + 1 ∧ u.bfOf = -1) ∨
       (r.bfOf ≠ 0 ∧ u.height = r.height ∧ u.bfOf = 0)) := by
  subst h2
  have hlge := l.height_ge
  cases r with
  | leaf => exfalso; simp at hbf; omega
  | node rv rbf rl rr =>
    rw [AvlT_node_iff] at hr
    obtain ⟨hrbf, hrb1, halrl, halrr⟩ := hr
    have h1 := rl.height_ge
    have h2g := rr.height_ge
    simp only [Tree.height_node] at hbf
    by_cases hc : rbf ≥ 0
    · -- right-right case: single left rotation
      refine ⟨Tree.node rv (rbf - (1 - min (2 - (1 + max rbf 0)) 0))
          (Tree.node value (2 - (1 + max rbf 0)) l rl) rr, ?_, ?_, ?_, ?_, ?_⟩
      · simp [Tree.balance, Tree.rotate_left, hc]
      · rw [AvlT_node_iff, AvlT_node_iff]
        simp only [Tree.height_node]
        exact ⟨by omega, by omega, ⟨by omega, by omega, hl, halrl⟩, halrr⟩
      · simp [List.append_assoc]
      · simp
      · simp only [Tree.bfOf_node, Tree.height_node]
        omega
    · -- right-left case: rotate the right child right, then rotate left
      cases rl with
      | leaf => exfalso; simp at hrbf; omega
      | node zv zbf zl zr =>
        rw [AvlT_node_iff] at halrl
        obtain ⟨hzbf, hzb1, halzl, halzr⟩ := halrl
        have h3 := zl.height_ge
        have h4 := zr.height_ge
        simp only [Tree.height_node] at hbf hrbf
        refine ⟨Tree.node zv
            ((zbf + (1 + max (rbf + (1 - min zbf 0)) 0)) -
              (1 - min (2 - (1 + max (zbf + (1 + max (rbf + (1 - min zbf 0)) 0)) 0)) 0))
            (Tree.node value
              (2 - (1 + max (zbf + (1 + max (rbf + (1 - min zbf 0)) 0)) 0)) l zl)
            (Tree.node rv (rbf + (1 - min zbf 0)) zr rr),
          ?_, ?_, ?_, ?_, ?_⟩
        · simp [Tree.balance, Tree.rotate_right, Tree.rotate_left, hc]
        · rw [AvlT_node_iff, AvlT_node_iff, AvlT_node_iff]
          simp only [Tree.height_node]
          exact ⟨by omega, by omega, ⟨by omega, by omega, hl, halzl⟩,
            by omega, by omega, halzr, halrr⟩
        · simp [List.append_assoc]
        · simp
        · simp only [Tree.bfOf_node, Tree.height_node]
          omega

end BSTpy

namespace BSTpy

theorem grewCond_iff (a b : Int) :
    Tree.grewCond a b = true ↔ ((a ≤ 0 ∧ b < a) ∨ (a ≥ 0 ∧ b > a)) := by
  simp [Tree.grewCond]

theorem shrankCond_iff (a : Int) (t : Tree) :
    Tree.shrankCond a t = true ↔ (t = Tree.leaf ∨ (a.natAbs = 1 ∧ t.bfOf = 0)) := by
  simp [Tree.shrankCond]

/-- Reassembling a parent after an insertion into its left subtree:
if the updated balance factor follows the height change of the new left
subtree `u1`, rebalancing succeeds and restores every invariant, and
the parent's height growth is signalled exactly by the balance-factor
transition test that `Node.insert` uses. -/
theorem insert_glue_left (value bf bf2 : Int) (l r u1 : Tree)
    (hau : AvlT u1) (har : AvlT r)
    (hsu : List.Sorted (· < ·) u1.toList) (hsr : List.Sorted (· < ·) r.toList)
    (hult : ∀ x ∈ u1.toList, x < value) (hrv : ∀ y ∈ r.toList, value < y)
    (hbf : bf = r.height - l.height) (hb1 : bf.natAbs ≤ 1)
    (hh : u1.height = l.height ∨ u1.height = l.height + 1)
    (hbf2 : bf2 = if u1.height = l.height + 1 then bf - 1 else bf)
    (hnz : u1.height = l.height + 1 → bf = -1 → u1.bfOf ≠ 0) :
    ∃ u, (Tree.node value bf2 u1 r).balance = .ok u ∧ u ≠ .leaf ∧
      List.Sorted (· < ·) u.toList ∧ AvlT u ∧
      u.toList = u1.toList ++ value :: r.toList ∧
      (u.height = max l.height r.height + 1 ∨ u.height = max l.height r.height + 1 + 1) ∧
      (u.height = max l.height r.height + 1 + 1 ↔ Tree.grewCond bf u.bfOf = true) := by
  have hlge := l.height_ge
  have hrge := r.height_ge
  have huge := u1.height_ge
  have hsorted : List.Sorted (· < ·) (Tree.node value bf2 u1 r).toList :=
    (sorted_node_iff value bf2 u1 r).mpr ⟨hsu, hsr, hult, hrv⟩
  by_cases hg : u1.height = l.height + 1
  · rw [if_pos hg] at hbf2
    by_cases hbneg : bf = -1
    · -- the parent tips over to -2 and must rotate
      obtain ⟨u, hueq, hua, hutl, hune, hdisj⟩ :=
        balance_neg2 value bf2 u1 r hau har (by omega) (by omega)
      refine ⟨u, hueq, hune, ?_, hua, hutl, ?_, ?_⟩
      · rw [hutl, ← Tree.toList_node value bf2 u1 r]
        exact hsorted
      · rcases hdisj with ⟨hz, _⟩ | ⟨_, hh2, _⟩
        · exact absurd hz (hnz hg hbneg)
        · omega
      · rcases hdisj with ⟨hz, _⟩ | ⟨_, hh2, hbf0⟩
        · exact absurd hz (hnz hg hbneg)
        · rw [grewCond_iff]
          omega
    · -- balance factor stays in range
      subst hbf2
      rw [Tree.balance_id _ _ _ _ (by omega)]
      refine ⟨_, rfl, by nofun, hsorted, ?_, by simp, ?_, ?_⟩
      · rw [AvlT_node_iff]
        exact ⟨by omega, by omega, hau, har⟩
      · simp only [Tree.height_node]
        omega
      · rw [grewCond_iff]
        simp only [Tree.height_node, Tree.bfOf_node]
        omega
  · have hsame : u1.height = l.height := by rcases hh with h | h; exacts [h, absurd h hg]
    rw [if_neg hg] at hbf2
    subst hbf2
    rw [Tree.balance_id _ _ _ _ (by omega)]
    refine ⟨_, rfl, by nofun, hsorted, ?_, by simp, ?_, ?_⟩
    · rw [AvlT_node_iff]
      exact ⟨by omega, by omega, hau, har⟩
    · simp only [Tree.height_node]
      omega
    · rw [grewCond_iff]
      simp only [Tree.height_node, Tree.bfOf_node]
      omega

end BSTpy

namespace BSTpy

/-- Mirror image of `insert_glue_left` for an insertion into the right
subtree. -/
theorem insert_glue_right (value bf bf2 : Int) (l r u1 : Tree)
    (hal : AvlT l) (hau : AvlT u1)
    (hsl : List.Sorted (· < ·) l.toList) (hsu : List.Sorted (· < ·) u1.toList)
    (hlv : ∀ x ∈ l.toList, x < value) (hugt : ∀ y ∈ u1.toList, value < y)
    (hbf : bf = r.height - l.height) (hb1 : bf.natAbs ≤ 1)
    (hh : u1.height = r.height ∨ u1.height = r.height + 1)
    (hbf2 : bf2 = if u1.height = r.height + 1 then bf + 1 else bf)
    (hnz : u1.height = r.height + 1 → bf = 1 → u1.bfOf ≠ 0) :
    ∃ u, (Tree.node value bf2 l u1).balance = .ok u ∧ u ≠ .leaf ∧
      List.Sorted (· < ·) u.toList ∧ AvlT u ∧
      u.toList = l.toList ++ value :: u1.toList ∧
      (u.height = max l.height r.height + 1 ∨ u.height = max l.height r.height + 1 + 1) ∧
      (u.height = max l.height r.height + 1 + 1 ↔ Tree.grewCond bf u.bfOf = true) := by
  have hlge := l.height_ge
  have hrge := r.height_ge
  have huge := u1.height_ge
  have hsorted : List.Sorted (· < ·) (Tree.node value bf2 l u1).toList :=
    (sorted_node_iff value bf2 l u1).mpr ⟨hsl, hsu, hlv, hugt⟩
  by_cases hg : u1.height = r.height + 1
  · rw [if_pos hg] at hbf2
    by_cases hbpos : bf = 1
    · -- the parent tips over to 2 and must rotate
      obtain ⟨u, hueq, hua, hutl, hune, hdisj⟩ :=
        balance_pos2 value bf2 l u1 hal hau (by omega) (by omega)
      refine ⟨u, hueq, hune, ?_, hua, hutl, ?_, ?_⟩
      · rw [hutl, ← Tree.toList_node value bf2 l u1]
        exact hsorted
      · rcases hdisj with ⟨hz, _⟩ | ⟨_, hh2, _⟩
        · exact absurd hz (hnz hg hbpos)
        · omega
      · rcases hdisj with ⟨hz, _⟩ | ⟨_, hh2, hbf0⟩
        · exact absurd hz (hnz hg hbpos)
        · rw [grewCond_iff]
          omega
    · -- balance factor stays in range
      subst hbf2
      rw [Tree.balance_id _ _ _ _ (by omega)]
      refine ⟨_, rfl, by nofun, hsorted, ?_, by simp, ?_, ?_⟩
      · rw [AvlT_node_iff]
        exact ⟨by omega, by omega, hal, hau⟩
      · simp only [Tree.height_node]
        omega
      · rw [grewCond_iff]
        simp only [Tree.height_node, Tree.bfOf_node]
        omega
  · have hsame : u1.height = r.height := by rcases hh with h | h; exacts [h, absurd h hg]
    rw [if_neg hg] at hbf2
    subst hbf2
    rw [Tree.balance_id _ _ _ _ (by omega)]
    refine ⟨_, rfl, by nofun, hsorted, ?_, by simp, ?_, ?_⟩
    · rw [AvlT_node_iff]
      exact ⟨by omega, by omega, hal, hau⟩
    · simp only [Tree.height_node]
      omega
    · rw [grewCond_iff]
      simp only [Tree.height_node, Tree.bfOf_node]
      omega

end BSTpy

namespace BSTpy

theorem Tree.insertN_dup (value bf : Int) (l r : Tree) :
    (Tree.node value bf l r).insertN value = .error "value is already present" := by
  rw [Tree.insertN.eq_def]
  simp

theorem Tree.insertN_left_leaf (value bf v : Int) (r : Tree)
    (hne : ¬ v = value) (hlt : v < value) :
    (Tree.node value bf Tree.leaf r).insertN v =
      (Tree.node value (bf - 1) (Tree.node v 0 .leaf .leaf) r).balance := by
  rw [Tree.insertN.eq_def]
  simp only [if_neg hne, if_pos hlt]

theorem Tree.insertN_left_ok (value bf v : Int) (l r u1 : Tree)
    (hne : ¬ v = value) (hlt : v < value) (hnl : l ≠ .leaf)
    (hok : l.insertN v = .ok u1) :
    (Tree.node value bf l r).insertN v =
      (Tree.node value (if Tree.grewCond l.bfOf u1.bfOf then bf - 1 else bf) u1 r).balance := by
  cases l with
  | leaf => exact absurd rfl hnl
  | node lv lbf ll lr =>
    rw [Tree.insertN.eq_def]
    simp only [if_neg hne, if_pos hlt, hok, Tree.bfOf_node, Except.bind]

theorem Tree.insertN_left_err (value bf v : Int) (l r : Tree) (e : String)
    (hne : ¬ v = value) (hlt : v < value) (hnl : l ≠ .leaf)
    (herr : l.insertN v = .error e) :
    (Tree.node value bf l r).insertN v = .error e := by
  cases l with
  | leaf => exact absurd rfl hnl
  | node lv lbf ll lr =>
    rw [Tree.insertN.eq_def]
    simp only [if_neg hne, if_pos hlt, herr, Except.bind]

theorem Tree.insertN_right_leaf (value bf v : Int) (l : Tree)
    (hne : ¬ v = value) (hlt : ¬ v < value) (hgt : v > value) :
    (Tree.node value bf l Tree.leaf).insertN v =
      (Tree.node value (bf + 1) l (Tree.node v 0 .leaf .leaf)).balance := by
  rw [Tree.insertN.eq_def]
  simp only [if_neg hne, if_neg hlt, if_pos hgt]

theorem Tree.insertN_right_ok (value bf v : Int) (l r u1 : Tree)
    (hne : ¬ v = value) (hlt : ¬ v < value) (hgt : v > value) (hnr : r ≠ .leaf)
    (hok : r.insertN v = .ok u1) :
    (Tree.node value bf l r).insertN v =
      (Tree.node value (if Tree.grewCond r.bfOf u1.bfOf then bf + 1 else bf) l u1).balance := by
  cases r with
  | leaf => exact absurd rfl hnr
  | node rv rbf rl rr =>
    rw [Tree.insertN.eq_def]
    simp only [if_neg hne, if_neg hlt, if_pos hgt, hok, Tree.bfOf_node, Except.bind]

theorem Tree.insertN_right_err (value bf v : Int) (l r : Tree) (e : String)
    (hne : ¬ v = value) (hlt : ¬ v < value) (hgt : v > value) (hnr : r ≠ .leaf)
    (herr : r.insertN v = .error e) :
    (Tree.node value bf l r).insertN v = .error e := by
  cases r with
  | leaf => exact absurd rfl hnr
  | node rv rbf rl rr =>
    rw [Tree.insertN.eq_def]
    simp only [if_neg hne, if_neg hlt, if_pos hgt, herr, Except.bind]

theorem Tree.deleteN_left_leaf (value bf v : Int) (r : Tree) (hlt : v < value) :
    (Tree.node value bf Tree.leaf r).deleteN v = .error "value is not present" := by
  rw [Tree.deleteN.eq_def]
  simp only [if_pos hlt]

theorem Tree.deleteN_left_ok (value bf v : Int) (l r u1 : Tree)
    (hlt : v < value) (hnl : l ≠ .leaf) (hok : l.deleteN v = .ok u1) :
    (Tree.node value bf l r).deleteN v =
      (Tree.node value (if Tree.shrankCond l.bfOf u1 then bf + 1 else bf) u1 r).balance := by
  cases l with
  | leaf => exact absurd rfl hnl
  | node lv lbf ll lr =>
    rw [Tree.deleteN.eq_def]
    simp only [if_pos hlt, hok, Tree.bfOf_node, Except.bind]

theorem Tree.deleteN_left_err (value bf v : Int) (l r : Tree) (e : String)
    (hlt : v < value) (hnl : l ≠ .leaf) (herr : l.deleteN v = .error e) :
    (Tree.node value bf l r).deleteN v = .error e := by
  cases l with
  | leaf => exact absurd rfl hnl
  | node lv lbf ll lr =>
    rw [Tree.deleteN.eq_def]
    simp only [if_pos hlt, herr, Except.bind]

theorem Tree.deleteN_right_leaf (value bf v : Int) (l : Tree)
    (hlt : ¬ v < value) (hgt : v > value) :
    (Tree.node value bf l Tree.leaf).deleteN v = .error "value is not present" := by
  rw [Tree.deleteN.eq_def]
  simp only [if_neg hlt, if_pos hgt]

theorem Tree.deleteN_right_ok (value bf v : Int) (l r u1 : Tree)
    (hlt : ¬ v < value) (hgt : v > value) (hnr : r ≠ .leaf)
    (hok : r.deleteN v = .ok u1) :
    (Tree.node value bf l r).deleteN v =
      (Tree.node value (if Tree.shrankCond r.bfOf u1 then bf - 1 else bf) l u1).balance := by
  cases r with
  | leaf => exact absurd rfl hnr
  | node rv rbf rl rr =>
    rw [Tree.deleteN.eq_def]
    simp only [if_neg hlt, if_pos hgt, hok, Tree.bfOf_node, Except.bind]

theorem Tree.deleteN_right_err (value bf v : Int) (l r : Tree) (e : String)
    (hlt : ¬ v < value) (hgt : v > value) (hnr : r ≠ .leaf)
    (herr : r.deleteN v = .error e) :
    (Tree.node value bf l r).deleteN v = .error e := by
  cases r with
  | leaf => exact absurd rfl hnr
  | node rv rbf rl rr =>
    rw [Tree.deleteN.eq_def]
    simp only [if_neg hlt, if_pos hgt, herr, Except.bind]

theorem Tree.deleteN_root_noleft (value bf : Int) (r : Tree) :
    (Tree.node value bf Tree.leaf r).deleteN value = .ok r := by
  rw [Tree.deleteN.eq_def]
  simp

theorem Tree.deleteN_root_noright (value bf : Int) (l : Tree) (hnl : l ≠ .leaf) :
    (Tree.node value bf l Tree.leaf).deleteN value = .ok l := by
  cases l with
  | leaf => exact absurd rfl hnl
  | node lv lbf ll lr =>
    rw [Tree.deleteN.eq_def]
    simp

theorem Tree.deleteN_root_two_ok (value bf : Int) (l r u1 : Tree)
    (hnl : l ≠ .leaf) (hnr : r ≠ .leaf) (hok : l.deleteN l.find_max = .ok u1) :
    (Tree.node value bf l r).deleteN value =
      (Tree.node l.find_max (if Tree.shrankCond l.bfOf u1 then bf + 1 else bf)
        u1 r).balance := by
  cases l with
  | leaf => exact absurd rfl hnl
  | node lv lbf ll lr =>
    cases r with
    | leaf => exact absurd rfl hnr
    | node rv rbf rl rr =>
      rw [Tree.deleteN.eq_def]
      simp only [lt_irrefl, if_false, gt_iff_lt, hok, Tree.bfOf_node, Except.bind,
        if_neg (lt_irrefl value)]

theorem Tree.deleteN_root_two_err (value bf : Int) (l r : Tree) (e : String)
    (hnl : l ≠ .leaf) (hnr : r ≠ .leaf) (herr : l.deleteN l.find_max = .error e) :
    (Tree.node value bf l r).deleteN value = .error e := by
  cases l with
  | leaf => exact absurd rfl hnl
  | node lv lbf ll lr =>
    cases r with
    | leaf => exact absurd rfl hnr
    | node rv rbf rl rr =>
      rw [Tree.deleteN.eq_def]
      simp only [lt_irrefl, if_false, gt_iff_lt, herr, Except.bind,
        if_neg (lt_irrefl value)]

end BSTpy

namespace BSTpy

/-- Full specification of `BSTree.Node.insert` on trees satisfying the
order and balance invariants: a present value raises, an absent value
is inserted with all invariants restored, the in-order traversal gains
exactly the new value, the height grows by at most one, and the height
growth is signalled exactly by the balance-factor transition observed
by the caller. -/
theorem insertN_spec : ∀ (t : Tree) (v : Int), t ≠ .leaf →
    List.Sorted (· < ·) t.toList → AvlT t →
    (v ∈ t.toList → t.insertN v = .error "value is already present") ∧
    (v ∉ t.toList → ∃ u, t.insertN v = .ok u ∧ u ≠ .leaf ∧
      List.Sorted (· < ·) u.toList ∧ AvlT u ∧ u.toList.Perm (v :: t.toList) ∧
      (u.height = t.height ∨ u.height = t.height + 1) ∧
      (u.height = t.height + 1 ↔ Tree.grewCond t.bfOf u.bfOf = true)) := by
  intro t
  induction t with
  | leaf => intro v h; exact absurd rfl h
  | node value bf l r ihl ihr =>
    intro v hne hs ha
    rw [AvlT_node_iff] at ha
    obtain ⟨hbf, hb1, hal, har⟩ := ha
    rw [sorted_node_iff] at hs
    obtain ⟨hsl, hsr, hlv, hrv⟩ := hs
    have hlge := l.height_ge
    have hrge := r.height_ge
    by_cases hveq : v = value
    · subst hveq
      refine ⟨fun _ => Tree.insertN_dup v bf l r, fun hmem => absurd ?_ hmem⟩
      rw [mem_node_iff]
      exact Or.inr (Or.inl rfl)
    · by_cases hvlt : v < value
      · -- the insertion goes into the left subtree
        have hmemiff : v ∈ (Tree.node value bf l r).toList ↔ v ∈ l.toList := by
          rw [mem_node_iff]
          constructor
          · rintro (h | h | h)
            · exact h
            · exact absurd h hveq
            · exact absurd (hrv v h) (by omega)
          · exact fun h => Or.inl h
        cases l with
        | leaf =>
          refine ⟨fun hmem => ?_, fun hnmem => ?_⟩
          · rw [hmemiff] at hmem
            simp at hmem
          · obtain ⟨u, hueq, hune, hus, hua, hutl, huh, hug⟩ :=
              insert_glue_left value bf (bf - 1) Tree.leaf r
                (Tree.node v 0 .leaf .leaf) ⟨rfl, rfl⟩ har
                (by simp) hsr (by simpa using hvlt) hrv hbf hb1
                (Or.inr (by simp only [Tree.height_node, Tree.height_leaf]; omega))
                (by rw [if_pos (by simp only [Tree.height_node, Tree.height_leaf]; omega)])
                (by intro _ hbm; exfalso; simp at hbf; omega)
            refine ⟨u, ?_, hune, hus, hua, ?_, ?_, ?_⟩
            · rw [Tree.insertN_left_leaf value bf v r hveq hvlt]
              exact hueq
            · rw [hutl]
              simp
            · simp only [Tree.height_node] at huh ⊢
              omega
            · simp only [Tree.height_node, Tree.bfOf_node] at hug ⊢
              exact hug
        | node lv lbf ll lr =>
          have ihle := ihl v (by nofun) hsl hal
          refine ⟨fun hmem => ?_, fun hnmem => ?_⟩
          · rw [hmemiff] at hmem
            exact Tree.insertN_left_err value bf v _ r _ hveq hvlt (by nofun)
              (ihle.1 hmem)
          · have hnlm : v ∉ (Tree.node lv lbf ll lr).toList := fun h =>
              hnmem (hmemiff.mpr h)
            obtain ⟨u1, hu1eq, hu1ne, hu1s, hu1a, hu1p, hu1h, hu1g⟩ := ihle.2 hnlm
            have hult : ∀ x ∈ u1.toList, x < value := by
              intro x hx
              rcases List.mem_cons.mp (hu1p.mem_iff.mp hx) with rfl | hx3
              · exact hvlt
              · exact hlv x hx3
            have hbf2 :
                (if Tree.grewCond (Tree.node lv lbf ll lr).bfOf u1.bfOf then bf - 1
                  else bf)
                = if u1.height = (Tree.node lv lbf ll lr).height + 1 then bf - 1
                  else bf := by
              by_cases hgc : u1.height = (Tree.node lv lbf ll lr).height + 1
              · rw [if_pos hgc, if_pos (hu1g.mp hgc)]
              · rw [if_neg hgc, if_neg (fun hc => hgc (hu1g.mpr hc))]
            have hnz : u1.height = (Tree.node lv lbf ll lr).height + 1 → bf = -1 →
                u1.bfOf ≠ 0 := by
              intro hg _ h0
              have hc := hu1g.mp hg
              rw [grewCond_iff] at hc
              simp only [Tree.bfOf_node] at hc
              omega
            obtain ⟨u, hueq, hune, hus, hua, hutl, huh, hug⟩ :=
              insert_glue_left value bf _ (Tree.node lv lbf ll lr) r u1
                hu1a har hu1s hsr hult hrv hbf hb1 hu1h hbf2 hnz
            refine ⟨u, ?_, hune, hus, hua, ?_, ?_, ?_⟩
            · rw [Tree.insertN_left_ok value bf v _ r u1 hveq hvlt (by nofun) hu1eq]
              exact hueq
            · rw [hutl]
              simp only [Tree.toList_node]
              exact hu1p.append_right _
            · simp only [Tree.height_node] at huh ⊢
              omega
            · simp only [Tree.height_node, Tree.bfOf_node] at hug ⊢
              exact hug
      · -- the insertion goes into the right subtree
        have hvgt : v > value := by omega
        have hmemiff : v ∈ (Tree.node value bf l r).toList ↔ v ∈ r.toList := by
          rw [mem_node_iff]
          constructor
          · rintro (h | h | h)
            · exact absurd (hlv v h) (by omega)
            · exact absurd h hveq
            · exact h
          · exact fun h => Or.inr (Or.inr h)
        cases r with
        | leaf =>
          refine ⟨fun hmem => ?_, fun hnmem => ?_⟩
          · rw [hmemiff] at hmem
            simp at hmem
          · obtain ⟨u, hueq, hune, hus, hua, hutl, huh, hug⟩ :=
              insert_glue_right value bf (bf + 1) l Tree.leaf
                (Tree.node v 0 .leaf .leaf) hal ⟨rfl, rfl⟩
                hsl (by simp) hlv (by simpa using hvgt) hbf hb1
                (Or.inr (by simp only [Tree.height_node, Tree.height_leaf]; omega))
                (by rw [if_pos (by simp only [Tree.height_node, Tree.height_leaf]; omega)])
                (by intro _ hbm; exfalso; simp at hbf; omega)
            refine ⟨u, ?_, hune, hus, hua, ?_, ?_, ?_⟩
            · rw [Tree.insertN_right_leaf value bf v l hveq hvlt hvgt]
              exact hueq
            · rw [hutl]
              simp only [Tree.toList_node, Tree.toList_leaf]
              have h := @List.perm_append_comm Int (l.toList ++ [value]) [v]
              simpa using h
            · simp only [Tree.height_node] at huh ⊢
              omega
            · simp only [Tree.height_node, Tree.bfOf_node] at hug ⊢
              exact hug
        | node rv rbf rl rr =>
          have ihre := ihr v (by nofun) hsr har
          refine ⟨fun hmem => ?_, fun hnmem => ?_⟩
          · rw [hmemiff] at hmem
            exact Tree.insertN_right_err value bf v l _ _ hveq hvlt hvgt (by nofun)
              (ihre.1 hmem)
          · have hnrm : v ∉ (Tree.node rv rbf rl rr).toList := fun h =>
              hnmem (hmemiff.mpr h)
            obtain ⟨u1, hu1eq, hu1ne, hu1s, hu1a, hu1p, hu1h, hu1g⟩ := ihre.2 hnrm
            have hugt : ∀ x ∈ u1.toList, value < x := by
              intro x hx
              rcases List.mem_cons.mp (hu1p.mem_iff.mp hx) with rfl | hx3
              · exact hvgt
              · exact hrv x hx3
            have hbf2 :
                (if Tree.grewCond (Tree.node rv rbf rl rr).bfOf u1.bfOf then bf + 1
                  else bf)
                = if u1.height = (Tree.node rv rbf rl rr).height + 1 then bf + 1
                  else bf := by
              by_cases hgc : u1.height = (Tree.node rv rbf rl rr).height + 1
              · rw [if_pos hgc, if_pos (hu1g.mp hgc)]
              · rw [if_neg hgc, if_neg (fun hc => hgc (hu1g.mpr hc))]
            have hnz : u1.height = (Tree.node rv rbf rl rr).height + 1 → bf = 1 →
                u1.bfOf ≠ 0 := by
              intro hg _ h0
              have hc := hu1g.mp hg
              rw [grewCond_iff] at hc
              simp only [Tree.bfOf_node] at hc
              omega
            obtain ⟨u, hueq, hune, hus, hua, hutl, huh, hug⟩ :=
              insert_glue_right value bf _ l (Tree.node rv rbf rl rr) u1
                hal hu1a hsl hu1s hlv hugt hbf hb1 hu1h hbf2 hnz
            refine ⟨u, ?_, hune, hus, hua, ?_, ?_, ?_⟩
            · rw [Tree.insertN_right_ok value bf v l _ u1 hveq hvlt hvgt (by nofun)
                hu1eq]
              exact hueq
            · rw [hutl]
              simp only [Tree.toList_node]
              have hstep1 :
                  (l.toList ++ value :: u1.toList).Perm
                    (l.toList ++ value :: (v :: (Tree.node rv rbf rl rr).toList)) :=
                List.Perm.append_left _ (List.Perm.cons _ hu1p)
              have hstep2 :
                  (l.toList ++ value :: (v :: (Tree.node rv rbf rl rr).toList)).Perm
                    (v :: (l.toList ++ value :: (Tree.node rv rbf rl rr).toList)) := by
                have h := @List.perm_middle Int v (l.toList ++ [value])
                  (Tree.node rv rbf rl rr).toList
                simpa using h
              exact hstep1.trans hstep2
            · simp only [Tree.height_node] at huh ⊢
              omega
            · simp only [Tree.height_node, Tree.bfOf_node] at hug ⊢
              exact hug

end BSTpy

namespace BSTpy

/-- `find_max` returns the maximum element of a sorted nonempty subtree. -/
theorem find_max_spec : ∀ (t : Tree), t ≠ .leaf →
    List.Sorted (· < ·) t.toList →
    t.find_max ∈ t.toList ∧ ∀ x ∈ t.toList, x ≤ t.find_max := by
  intro t
  induction t with
  | leaf => intro h; exact absurd rfl h
  | node v bf l r ihl ihr =>
    intro _ hs
    rw [sorted_node_iff] at hs
    obtain ⟨hsl, hsr, hlv, hrv⟩ := hs
    cases r with
    | leaf =>
      have hfm : (Tree.node v bf l .leaf).find_max = v := rfl
      rw [hfm]
      refine ⟨by rw [mem_node_iff]; exact Or.inr (Or.inl rfl), ?_⟩
      intro x hx
      rcases (mem_node_iff x v bf l .leaf).mp hx with h | h | h
      · exact le_of_lt (hlv x h)
      · exact le_of_eq h
      · simp at h
    | node rv rbf rl rr =>
      have hfm : (Tree.node v bf l (.node rv rbf rl rr)).find_max
          = (Tree.node rv rbf rl rr).find_max := rfl
      obtain ⟨hmem, hmax⟩ := ihr (by nofun) hsr
      rw [hfm]
      refine ⟨by rw [mem_node_iff]; exact Or.inr (Or.inr hmem), ?_⟩
      intro x hx
      rcases (mem_node_iff x v bf l (.node rv rbf rl rr)).mp hx with h | h | h
      · exact le_of_lt (lt_trans (hlv x h) (hrv _ hmem))
      · exact le_of_lt (h ▸ hrv _ hmem)
      · exact hmax x h

/-- Reassembling a parent after a deletion in its left subtree:
rebalancing succeeds and restores every invariant, and the parent's
height decrease is signalled exactly by `|bf| = 1` together with a zero
final balance factor (the test `Node.delete` uses at the caller, given
that the result is a node). -/
theorem delete_glue_left (value bf bf2 : Int) (l r u1 : Tree)
    (hau : AvlT u1) (har : AvlT r)
    (hsu : List.Sorted (· < ·) u1.toList) (hsr : List.Sorted (· < ·) r.toList)
    (hult : ∀ x ∈ u1.toList, x < value) (hrv : ∀ y ∈ r.toList, value < y)
    (hbf : bf = r.height - l.height) (hb1 : bf.natAbs ≤ 1)
    (hh : u1.height = l.height ∨ u1.height = l.height - 1)
    (hbf2 : bf2 = if u1.height = l.height - 1 then bf + 1 else bf) :
    ∃ u, (Tree.node value bf2 u1 r).balance = .ok u ∧ u ≠ .leaf ∧
      List.Sorted (· < ·) u.toList ∧ AvlT u ∧
      u.toList = u1.toList ++ value :: r.toList ∧
      (u.height = max l.height r.height + 1 ∨ u.height = max l.height r.height) ∧
      (u.height = max l.height r.height ↔ (bf.natAbs = 1 ∧ u.bfOf = 0)) := by
  have hlge := l.height_ge
  have hrge := r.height_ge
  have huge := u1.height_ge
  have hsorted : List.Sorted (· < ·) (Tree.node value bf2 u1 r).toList :=
    (sorted_node_iff value bf2 u1 r).mpr ⟨hsu, hsr, hult, hrv⟩
  by_cases hg : u1.height = l.height - 1
  · rw [if_pos hg] at hbf2
    by_cases hbpos : bf = 1
    · -- the parent tips over to 2 and must rotate
      obtain ⟨u, hueq, hua, hutl, hune, hdisj⟩ :=
        balance_pos2 value bf2 u1 r hau har (by omega) (by omega)
      refine ⟨u, hueq, hune, ?_, hua, hutl, ?_, ?_⟩
      · rw [hutl, ← Tree.toList_node value bf2 u1 r]
        exact hsorted
      · omega
      · constructor
        · intro hdec
          rcases hdisj with ⟨_, hh2, _⟩ | ⟨_, hh2, hbf0⟩
          · omega
          · omega
        · rintro ⟨_, hbf0⟩
          rcases hdisj with ⟨_, hh2, hbfm⟩ | ⟨_, hh2, _⟩
          · omega
          · omega
    · -- balance factor stays in range
      subst hbf2
      rw [Tree.balance_id _ _ _ _ (by omega)]
      refine ⟨_, rfl, by nofun, hsorted, ?_, by simp, ?_, ?_⟩
      · rw [AvlT_node_iff]
        exact ⟨by omega, by omega, hau, har⟩
      · simp only [Tree.height_node]
        omega
      · simp only [Tree.height_node, Tree.bfOf_node]
        omega
  · have hsame : u1.height = l.height := by rcases hh with h | h; exacts [h, absurd h hg]
    rw [if_neg hg] at hbf2
    subst hbf2
    rw [Tree.balance_id _ _ _ _ hb1]
    refine ⟨_, rfl, by nofun, hsorted, ?_, by simp, ?_, ?_⟩
    · rw [AvlT_node_iff]
      exact ⟨by omega, hb1, hau, har⟩
    · simp only [Tree.height_node]
      omega
    · simp only [Tree.height_node, Tree.bfOf_node]
      omega

/-- Mirror image of `delete_glue_left` for a deletion in the right
subtree. -/
theorem delete_glue_right (value bf bf2 : Int) (l r u1 : Tree)
    (hal : AvlT l) (hau : AvlT u1)
    (hsl : List.Sorted (· < ·) l.toList) (hsu : List.Sorted (· < ·) u1.toList)
    (hlv : ∀ x ∈ l.toList, x < value) (hugt : ∀ y ∈ u1.toList, value < y)
    (hbf : bf = r.height - l.height) (hb1 : bf.natAbs ≤ 1)
    (hh : u1.height = r.height ∨ u1.height = r.height - 1)
    (hbf2 : bf2 = if u1.height = r.height - 1 then bf - 1 else bf) :
    ∃ u, (Tree.node value bf2 l u1).balance = .ok u ∧ u ≠ .leaf ∧
      List.Sorted (· < ·) u.toList ∧ AvlT u ∧
      u.toList = l.toList ++ value :: u1.toList ∧
      (u.height = max l.height r.height + 1 ∨ u.height = max l.height r.height) ∧
      (u.height = max l.height r.height ↔ (bf.natAbs = 1 ∧ u.bfOf = 0)) := by
  have hlge := l.height_ge
  have hrge := r.height_ge
  have huge := u1.height_ge
  have hsorted : List.Sorted (· < ·) (Tree.node value bf2 l u1).toList :=
    (sorted_node_iff value bf2 l u1).mpr ⟨hsl, hsu, hlv, hugt⟩
  by_cases hg : u1.height = r.height - 1
  · rw [if_pos hg] at hbf2
    by_cases hbneg : bf = -1
    · -- the parent tips over to -2 and must rotate
      obtain ⟨u, hueq, hua, hutl, hune, hdisj⟩ :=
        balance_neg2 value bf2 l u1 hal hau (by omega) (by omega)
      refine ⟨u, hueq, hune, ?_, hua, hutl, ?_, ?_⟩
      · rw [hutl, ← Tree.toList_node value bf2 l u1]
        exact hsorted
      · omega
      · constructor
        · intro hdec
          rcases hdisj with ⟨_, hh2, _⟩ | ⟨_, hh2, hbf0⟩
          · omega
          · omega
        · rintro ⟨_, hbf0⟩
          rcases hdisj with ⟨_, hh2, hbfm⟩ | ⟨_, hh2, _⟩
          · omega
          · omega
    · -- balance factor stays in range
      subst hbf2
      rw [Tree.balance_id _ _ _ _ (by omega)]
      refine ⟨_, rfl, by nofun, hsorted, ?_, by simp, ?_, ?_⟩
      · rw [AvlT_node_iff]
        exact ⟨by omega, by omega, hal, hau⟩
      · simp only [Tree.height_node]
        omega
      · simp only [Tree.height_node, Tree.bfOf_node]
        omega
  · have hsame : u1.height = r.height := by rcases hh with h | h; exacts [h, absurd h hg]
    rw [if_neg hg] at hbf2
    subst hbf2
    rw [Tree.balance_id _ _ _ _ hb1]
    refine ⟨_, rfl, by nofun, hsorted, ?_, by simp, ?_, ?_⟩
    · rw [AvlT_node_iff]
      exact ⟨by omega, hb1, hal, hau⟩
    · simp only [Tree.height_node]
      omega
    · simp only [Tree.height_node, Tree.bfOf_node]
      omega

end BSTpy

namespace BSTpy

/-- Full specification of `BSTree.Node.delete` on trees satisfying the
order and balance invariants: an absent value raises, a present value
is removed with all invariants restored, the in-order traversal loses
exactly that value, the height shrinks by at most one, and the height
decrease is signalled exactly by the test that the recursive caller
applies (result absent, or `|bf| = 1` before with final `bf = 0`). -/
theorem deleteN_spec : ∀ (t : Tree) (v : Int), t ≠ .leaf →
    List.Sorted (· < ·) t.toList → AvlT t →
    (v ∉ t.toList → t.deleteN v = .error "value is not present") ∧
    (v ∈ t.toList → ∃ u, t.deleteN v = .ok u ∧
      List.Sorted (· < ·) u.toList ∧ AvlT u ∧ t.toList.Perm (v :: u.toList) ∧
      (u.height = t.height ∨ u.height = t.height - 1) ∧
      (u.height = t.height - 1 ↔ Tree.shrankCond t.bfOf u = true)) := by
  intro t
  induction t with
  | leaf => intro v h; exact absurd rfl h
  | node value bf l r ihl ihr =>
    intro v hne hs ha
    rw [AvlT_node_iff] at ha
    obtain ⟨hbf, hb1, hal, har⟩ := ha
    rw [sorted_node_iff] at hs
    obtain ⟨hsl, hsr, hlv, hrv⟩ := hs
    have hlge := l.height_ge
    have hrge := r.height_ge
    by_cases hvlt : v < value
    · -- deletion goes into the left subtree
      have hmemiff : v ∈ (Tree.node value bf l r).toList ↔ v ∈ l.toList := by
        rw [mem_node_iff]
        constructor
        · rintro (h | h | h)
          · exact h
          · omega
          · exact absurd (hrv v h) (by omega)
        · exact fun h => Or.inl h
      cases l with
      | leaf =>
        refine ⟨fun _ => Tree.deleteN_left_leaf value bf v r hvlt, fun hmem => ?_⟩
        rw [hmemiff] at hmem
        simp at hmem
      | node lv lbf ll lr =>
        have ihle := ihl v (by nofun) hsl hal
        refine ⟨fun hnmem => ?_, fun hmem => ?_⟩
        · exact Tree.deleteN_left_err value bf v _ r _ hvlt (by nofun)
            (ihle.1 (fun h => hnmem (hmemiff.mpr h)))
        · rw [hmemiff] at hmem
          obtain ⟨u1, hu1eq, hu1s, hu1a, hu1p, hu1h, hu1g⟩ := ihle.2 hmem
          have hult : ∀ x ∈ u1.toList, x < value := fun x hx =>
            hlv x (hu1p.mem_iff.mpr (List.mem_cons_of_mem v hx))
          have hbf2 :
              (if Tree.shrankCond (Tree.node lv lbf ll lr).bfOf u1 then bf + 1
                else bf)
              = if u1.height = (Tree.node lv lbf ll lr).height - 1 then bf + 1
                else bf := by
            by_cases hgc : u1.height = (Tree.node lv lbf ll lr).height - 1
            · rw [if_pos hgc, if_pos (hu1g.mp hgc)]
            · rw [if_neg hgc, if_neg (fun hc => hgc (hu1g.mpr hc))]
          obtain ⟨u, hueq, hune, hus, hua, hutl, huh, hug⟩ :=
            delete_glue_left value bf _ (Tree.node lv lbf ll lr) r u1
              hu1a har hu1s hsr hult hrv hbf hb1 hu1h hbf2
          refine ⟨u, ?_, hus, hua, ?_, ?_, ?_⟩
          · rw [Tree.deleteN_left_ok value bf v _ r u1 hvlt (by nofun) hu1eq]
            exact hueq
          · rw [hutl]
            simp only [Tree.toList_node]
            exact hu1p.append_right _
          · simp only [Tree.height_node] at huh ⊢
            omega
          · rw [shrankCond_iff]
            simp only [Tree.height_node, Tree.bfOf_node] at hug huh ⊢
            constructor
            · intro hdec
              exact Or.inr (hug.mp (by omega))
            · rintro (h | h)
              · exact absurd h hune
              · have := hug.mpr h
                omega
    · by_cases hvgt : v > value
      · -- deletion goes into the right subtree
        have hmemiff : v ∈ (Tree.node value bf l r).toList ↔ v ∈ r.toList := by
          rw [mem_node_iff]
          constructor
          · rintro (h | h | h)
            · exact absurd (hlv v h) (by omega)
            · omega
            · exact h
          · exact fun h => Or.inr (Or.inr h)
        cases r with
        | leaf =>
          refine ⟨fun _ => Tree.deleteN_right_leaf value bf v l hvlt hvgt,
            fun hmem => ?_⟩
          rw [hmemiff] at hmem
          simp at hmem
        | node rv rbf rl rr =>
          have ihre := ihr v (by nofun) hsr har
          refine ⟨fun hnmem => ?_, fun hmem => ?_⟩
          · exact Tree.deleteN_right_err value bf v l _ _ hvlt hvgt (by nofun)
              (ihre.1 (fun h => hnmem (hmemiff.mpr h)))
          · rw [hmemiff] at hmem
            obtain ⟨u1, hu1eq, hu1s, hu1a, hu1p, hu1h, hu1g⟩ := ihre.2 hmem
            have hugt : ∀ x ∈ u1.toList, value < x := fun x hx =>
              hrv x (hu1p.mem_iff.mpr (List.mem_cons_of_mem v hx))
            have hbf2 :
                (if Tree.shrankCond (Tree.node rv rbf rl rr).bfOf u1 then bf - 1
                  else bf)
                = if u1.height = (Tree.node rv rbf rl rr).height - 1 then bf - 1
                  else bf := by
              by_cases hgc : u1.height = (Tree.node rv rbf rl rr).height - 1
              · rw [if_pos hgc, if_pos (hu1g.mp hgc)]
              · rw [if_neg hgc, if_neg (fun hc => hgc (hu1g.mpr hc))]
            obtain ⟨u, hueq, hune, hus, hua, hutl, huh, hug⟩ :=
              delete_glue_right value bf _ l (Tree.node rv rbf rl rr) u1
                hal hu1a hsl hu1s hlv hugt hbf hb1 hu1h hbf2
            refine ⟨u, ?_, hus, hua, ?_, ?_, ?_⟩
            · rw [Tree.deleteN_right_ok value bf v l _ u1 hvlt hvgt (by nofun) hu1eq]
              exact hueq
            · rw [hutl]
              simp only [Tree.toList_node]
              have hstep1 :
                  (l.toList ++ value :: (Tree.node rv rbf rl rr).toList).Perm
                    (l.toList ++ value :: (v :: u1.toList)) :=
                List.Perm.append_left _ (List.Perm.cons _ hu1p)
              have hstep2 :
                  (l.toList ++ value :: (v :: u1.toList)).Perm
                    (v :: (l.toList ++ value :: u1.toList)) := by
                have h := @List.perm_middle Int v (l.toList ++ [value]) u1.toList
                simpa using h
              exact hstep1.trans hstep2
            · simp only [Tree.height_node] at huh ⊢
              omega
            · rw [shrankCond_iff]
              simp only [Tree.height_node, Tree.bfOf_node] at hug huh ⊢
              constructor
              · intro hdec
                exact Or.inr (hug.mp (by omega))
              · rintro (h | h)
                · exact absurd h hune
                · have := hug.mpr h
                  omega
      · -- the value sits at this node
        have hveq : v = value := by omega
        subst hveq
        refine ⟨fun hnmem => absurd ?_ hnmem, fun _ => ?_⟩
        · rw [mem_node_iff]
          exact Or.inr (Or.inl rfl)
        cases l with
        | leaf =>
          refine ⟨r, Tree.deleteN_root_noleft v bf r, hsr, har, ?_, ?_, ?_⟩
          · simp only [Tree.toList_node, Tree.toList_leaf, List.nil_append]
            exact List.Perm.refl _
          · simp only [Tree.height_node, Tree.height_leaf]
            omega
          · rw [shrankCond_iff]
            simp only [Tree.height_node, Tree.height_leaf, Tree.bfOf_node] at hbf ⊢
            constructor
            · intro _
              rcases (by omega : r.height = -1 ∨ r.height = 0) with h0 | h0
              · exact Or.inl (Tree.eq_leaf_of_height (by omega))
              · right
                refine ⟨by omega, ?_⟩
                cases r with
                | leaf => simp at h0
                | node rv rbf rl rr =>
                  rw [AvlT_node_iff] at har
                  obtain ⟨hrbf, _, _, _⟩ := har
                  have h1 := rl.height_ge
                  have h2 := rr.height_ge
                  simp only [Tree.height_node] at h0 hrbf
                  simp only [Tree.bfOf_node]
                  omega
            · intro _
              omega
        | node lv lbf ll lr =>
          cases r with
          | leaf =>
            refine ⟨Tree.node lv lbf ll lr,
              Tree.deleteN_root_noright v bf _ (by nofun), hsl, hal, ?_, ?_, ?_⟩
            · have h := @List.perm_append_comm Int
                (Tree.node lv lbf ll lr).toList [v]
              simpa using h
            · have h1 := ll.height_ge
              have h2 := lr.height_ge
              simp only [Tree.height_node, Tree.height_leaf] at hbf ⊢
              omega
            · rw [shrankCond_iff]
              rw [AvlT_node_iff] at hal
              obtain ⟨hlbf, _, _, _⟩ := hal
              have h1 := ll.height_ge
              have h2 := lr.height_ge
              simp only [Tree.height_node, Tree.height_leaf, Tree.bfOf_node]
                at hbf hlbf ⊢
              constructor
              · intro _
                exact Or.inr ⟨by omega, by omega⟩
              · intro _
                omega
          | node rv rbf rl rr =>
            -- two children: replace with the in-order predecessor
            have hLne : (Tree.node lv lbf ll lr) ≠ Tree.leaf := by nofun
            obtain ⟨hsvmem, hsvmax⟩ := find_max_spec _ hLne hsl
            have ihle := ihl (Tree.node lv lbf ll lr).find_max hLne hsl hal
            obtain ⟨u1, hu1eq, hu1s, hu1a, hu1p, hu1h, hu1g⟩ := ihle.2 hsvmem
            have hnodupL : (Tree.node lv lbf ll lr).toList.Nodup := hsl.nodup
            have hsvnotu1 : (Tree.node lv lbf ll lr).find_max ∉ u1.toList :=
              (List.nodup_cons.mp (hu1p.nodup_iff.mp hnodupL)).1
            have hult : ∀ x ∈ u1.toList, x < (Tree.node lv lbf ll lr).find_max := by
              intro x hx
              have hxL : x ∈ (Tree.node lv lbf ll lr).toList :=
                hu1p.mem_iff.mpr (List.mem_cons_of_mem _ hx)
              have hle := hsvmax x hxL
              have hxne : x ≠ (Tree.node lv lbf ll lr).find_max := fun hE =>
                hsvnotu1 (hE ▸ hx)
              omega
            have hrv' : ∀ y ∈ (Tree.node rv rbf rl rr).toList,
                (Tree.node lv lbf ll lr).find_max < y := fun y hy =>
              lt_trans (hlv _ hsvmem) (hrv y hy)
            have hbf2 :
                (if Tree.shrankCond (Tree.node lv lbf ll lr).bfOf u1 then bf + 1
                  else bf)
                = if u1.height = (Tree.node lv lbf ll lr).height - 1 then bf + 1
                  else bf := by
              by_cases hgc : u1.height = (Tree.node lv lbf ll lr).height - 1
              · rw [if_pos hgc, if_pos (hu1g.mp hgc)]
              · rw [if_neg hgc, if_neg (fun hc => hgc (hu1g.mpr hc))]
            obtain ⟨u, hueq, hune, hus, hua, hutl, huh, hug⟩ :=
              delete_glue_left ((Tree.node lv lbf ll lr).find_max) bf _
                (Tree.node lv lbf ll lr) (Tree.node rv rbf rl rr) u1
                hu1a har hu1s hsr hult hrv' hbf hb1 hu1h hbf2
            refine ⟨u, ?_, hus, hua, ?_, ?_, ?_⟩
            · rw [Tree.deleteN_root_two_ok v bf _ _ u1 hLne (by nofun) hu1eq]
              exact hueq
            · rw [hutl]
              simp only [Tree.toList_node]
              have p1 :
                  ((Tree.node lv lbf ll lr).toList ++
                      v :: (Tree.node rv rbf rl rr).toList).Perm
                    (((Tree.node lv lbf ll lr).find_max :: u1.toList) ++
                      v :: (Tree.node rv rbf rl rr).toList) := hu1p.append_right _
              have p2 :
                  (u1.toList ++ v :: (Tree.node rv rbf rl rr).toList).Perm
                    (v :: (u1.toList ++ (Tree.node rv rbf rl rr).toList)) :=
                List.perm_middle
              have p3 :
                  (u1.toList ++
                      (Tree.node lv lbf ll lr).find_max ::
                        (Tree.node rv rbf rl rr).toList).Perm
                    ((Tree.node lv lbf ll lr).find_max ::
                      (u1.toList ++ (Tree.node rv rbf rl rr).toList)) :=
                List.perm_middle
              exact p1.trans ((List.Perm.cons _ p2).trans
                ((List.Perm.swap v ((Tree.node lv lbf ll lr).find_max) _).trans
                  (List.Perm.cons _ p3.symm)))
            · simp only [Tree.height_node] at huh ⊢
              omega
            · rw [shrankCond_iff]
              simp only [Tree.height_node, Tree.bfOf_node] at hug huh ⊢
              constructor
              · intro hdec
                exact Or.inr (hug.mp (by omega))
              · rintro (h | h)
                · exact absurd h hune
                · have := hug.mpr h
                  omega

end BSTpy

namespace BSTpy

theorem Inv_leaf : Inv Tree.leaf := ⟨by simp, AvlT_leaf⟩

theorem BSTree.insert_none (t : Tree) : BSTree.insert t none = (false, t) := rfl

theorem BSTree.insert_leaf_some (v : Int) :
    BSTree.insert .leaf (some v) = (true, .node v 0 .leaf .leaf) := rfl

/-- `insert` on a present value returns `False` and leaves the tree
untouched (the `RuntimeError` is raised before any mutation and caught
at the top). -/
theorem BSTree.insert_mem (t : Tree) (hI : Inv t) (w : Int) (hw : w ∈ t.toList) :
    BSTree.insert t (some w) = (false, t) := by
  obtain ⟨hs, ha⟩ := hI
  cases t with
  | leaf => simp at hw
  | node value bf l r =>
    have herr := (insertN_spec (Tree.node value bf l r) w (by nofun) hs ha).1 hw
    simp [BSTree.insert, herr]

/-- `insert` on an absent value returns `True` and produces a tree with
that value added, with all invariants intact. -/
theorem BSTree.insert_new (t : Tree) (hI : Inv t) (w : Int) (hw : w ∉ t.toList) :
    ∃ u, BSTree.insert t (some w) = (true, u) ∧ Inv u ∧
      u.toList.Perm (w :: t.toList) := by
  obtain ⟨hs, ha⟩ := hI
  cases t with
  | leaf =>
    refine ⟨.node w 0 .leaf .leaf, rfl, ⟨by simp, ⟨rfl, rfl⟩⟩, by simp⟩
  | node value bf l r =>
    obtain ⟨u, hueq, _, hus, hua, hup, _, _⟩ :=
      (insertN_spec (Tree.node value bf l r) w (by nofun) hs ha).2 hw
    exact ⟨u, by simp [BSTree.insert, hueq], ⟨hus, hua⟩, hup⟩

theorem BSTree.delete_none (t : Tree) : BSTree.delete t none = (false, t) := rfl

theorem BSTree.delete_leaf (v : Option Int) :
    BSTree.delete .leaf v = (false, .leaf) := by
  cases v <;> rfl

/-- `delete` on an absent value returns `False` and leaves the tree
untouched. -/
theorem BSTree.delete_not_mem (t : Tree) (hI : Inv t) (w : Int)
    (hw : w ∉ t.toList) : BSTree.delete t (some w) = (false, t) := by
  obtain ⟨hs, ha⟩ := hI
  cases t with
  | leaf => rfl
  | node value bf l r =>
    have herr := (deleteN_spec (Tree.node value bf l r) w (by nofun) hs ha).1 hw
    simp [BSTree.delete, herr]

/-- `delete` on a present value returns `True` and produces a tree with
exactly that value removed, with all invariants intact. -/
theorem BSTree.delete_mem (t : Tree) (hI : Inv t) (w : Int) (hw : w ∈ t.toList) :
    ∃ u, BSTree.delete t (some w) = (true, u) ∧ Inv u ∧
      t.toList.Perm (w :: u.toList) := by
  obtain ⟨hs, ha⟩ := hI
  cases t with
  | leaf => simp at hw
  | node value bf l r =>
    obtain ⟨u, hueq, hus, hua, hup, _, _⟩ :=
      (deleteN_spec (Tree.node value bf l r) w (by nofun) hs ha).2 hw
    exact ⟨u, by simp [BSTree.delete, hueq], ⟨hus, hua⟩, hup⟩

/-- Every tree state reachable through the public API satisfies the
order and balance invariants. -/
theorem reachable_inv {t : Tree} (h : Reachable t) : Inv t := by
  induction h with
  | empty => exact Inv_leaf
  | ins v hr ih =>
    rename_i t0
    cases v with
    | none => rw [BSTree.insert_none]; exact ih
    | some w =>
      by_cases hw : w ∈ t0.toList
      · rw [BSTree.insert_mem t0 ih w hw]
        exact ih
      · obtain ⟨u, hueq, hIu, _⟩ := BSTree.insert_new t0 ih w hw
        rw [hueq]
        exact hIu
  | del v hr ih =>
    rename_i t0
    cases v with
    | none => rw [BSTree.delete_none]; exact ih
    | some w =>
      by_cases hw : w ∈ t0.toList
      · obtain ⟨u, hueq, hIu, _⟩ := BSTree.delete_mem t0 ih w hw
        rw [hueq]
        exact hIu
      · rw [BSTree.delete_not_mem t0 ih w hw]
        exact ih

instance : IsAntisymm Int (· < ·) := ⟨fun _ _ h1 h2 => (lt_asymm h1 h2).elim⟩

theorem sorted_perm_eq {l1 l2 : List Int} (h : l1.Perm l2)
    (h1 : List.Sorted (· < ·) l1) (h2 : List.Sorted (· < ·) l2) : l1 = l2 :=
  List.eq_of_perm_of_sorted h h1 h2

theorem Tree.toListRev_eq (t : Tree) : t.toListRev = t.toList.reverse := by
  induction t with
  | leaf => rfl
  | node v bf l r ihl ihr => simp [Tree.toListRev, Tree.toList, ihl, ihr]

end BSTpy

namespace BSTpy

/-- `__contains__` decides membership on sorted trees. -/
theorem contains_iff : ∀ (t : Tree), List.Sorted (· < ·) t.toList →
    ∀ v : Int, (BSTree.contains t v = true ↔ v ∈ t.toList) := by
  intro t
  induction t with
  | leaf => intro _ v; simp [BSTree.contains]
  | node w bf l r ihl ihr =>
    intro hs v
    rw [sorted_node_iff] at hs
    obtain ⟨hsl, hsr, hlv, hrv⟩ := hs
    rw [mem_node_iff]
    by_cases h1 : v < w
    · simp only [BSTree.contains, if_pos h1]
      rw [ihl hsl v]
      constructor
      · exact fun h => Or.inl h
      · rintro (h | h | h)
        · exact h
        · omega
        · exact absurd (hrv v h) (by omega)
    · by_cases h2 : v > w
      · simp only [BSTree.contains, if_neg h1, if_pos h2]
        rw [ihr hsr v]
        constructor
        · exact fun h => Or.inr (Or.inr h)
        · rintro (h | h | h)
          · exact absurd (hlv v h) (by omega)
          · omega
          · exact h
      · have hve : v = w := by omega
        subst hve
        simp only [BSTree.contains, if_neg h1, if_neg h2]
        simp

/-- The `__getitem__` loop on a non-negative position. -/
theorem getLoop_nonneg : ∀ (l : List Int) (k pos : Int), 0 ≤ pos →
    BSTree.getLoop l k pos =
      if pos < k then none else l.get? (pos - k).toNat := by
  intro l
  induction l with
  | nil =>
    intro k pos h
    simp [BSTree.getLoop]
  | cons v rest ih =>
    intro k pos h
    have hc : ¬ pos < 0 := by omega
    simp only [BSTree.getLoop, if_neg hc]
    by_cases hk : k = pos
    · rw [if_pos hk, if_neg (by omega), show (pos - k).toNat = 0 by omega]
      simp
    · rw [if_neg hk, ih (k + 1) pos h]
      by_cases h2 : pos < k
      · rw [if_pos (by omega), if_pos h2]
      · rw [if_neg (by omega : ¬ pos < k + 1), if_neg h2,
          show (pos - k).toNat = (pos - (k + 1)).toNat + 1 by omega,
          List.get?_cons_succ]

/-- The `__getitem__` loop on a negative position. -/
theorem getLoop_neg : ∀ (l : List Int) (k pos : Int), pos < 0 →
    BSTree.getLoop l k pos =
      if -1 - pos < k then none else l.get? (-1 - pos - k).toNat := by
  intro l
  induction l with
  | nil =>
    intro k pos h
    simp [BSTree.getLoop]
  | cons v rest ih =>
    intro k pos h
    simp only [BSTree.getLoop, if_pos h]
    by_cases hk : -k - 1 = pos
    · rw [if_pos hk, if_neg (by omega), show (-1 - pos - k).toNat = 0 by omega]
      simp
    · rw [if_neg hk, ih (k + 1) pos h]
      by_cases h2 : -1 - pos < k
      · rw [if_pos (by omega), if_pos h2]
      · rw [if_neg (by omega : ¬ -1 - pos < k + 1), if_neg h2,
          show (-1 - pos - k).toNat = (-1 - pos - (k + 1)).toNat + 1 by omega,
          List.get?_cons_succ]

/-- Folding the constructor's insert loop over a list preserves the
invariants and accumulates exactly the non-`None` values. -/
theorem ofList_go : ∀ (l : List (Option Int)) (t : Tree), Inv t →
    Inv (l.foldl (fun t v => (BSTree.insert t v).2) t) ∧
    (∀ x : Int, x ∈ (l.foldl (fun t v => (BSTree.insert t v).2) t).toList ↔
      some x ∈ l ∨ x ∈ t.toList) := by
  intro l
  induction l with
  | nil =>
    intro t h
    exact ⟨h, by simp⟩
  | cons v rest ih =>
    intro t h
    cases v with
    | none =>
      rw [List.foldl_cons]
      rw [show (BSTree.insert t none).2 = t from rfl]
      obtain ⟨h1, h2⟩ := ih t h
      refine ⟨h1, fun x => ?_⟩
      rw [h2 x]
      simp
    | some w =>
      by_cases hw : w ∈ t.toList
      · rw [List.foldl_cons]
        rw [show (BSTree.insert t (some w)).2 = t from by
          rw [BSTree.insert_mem t h w hw]]
        obtain ⟨h1, h2⟩ := ih t h
        refine ⟨h1, fun x => ?_⟩
        rw [h2 x]
        simp only [List.mem_cons, Option.some.injEq]
        constructor
        · rintro (hx | hx)
          · exact Or.inl (Or.inr hx)
          · exact Or.inr hx
        · rintro ((hx | hx) | hx)
          · subst hx
            exact Or.inr hw
          · exact Or.inl hx
          · exact Or.inr hx
      · obtain ⟨u, hueq, hIu, hup⟩ := BSTree.insert_new t h w hw
        rw [List.foldl_cons]
        rw [show (BSTree.insert t (some w)).2 = u from by rw [hueq]]
        obtain ⟨h1, h2⟩ := ih u hIu
        refine ⟨h1, fun x => ?_⟩
        rw [h2 x]
        have hmem : x ∈ u.toList ↔ x = w ∨ x ∈ t.toList := by
          rw [hup.mem_iff]
          simp
        rw [hmem]
        simp only [List.mem_cons, Option.some.injEq]
        tauto

/-- The tree built by the constructor satisfies the invariants and
holds exactly the distinct non-`None` values of the iterable. -/
theorem ofList_spec (l : List (Option Int)) :
    Inv (BSTree.ofList l) ∧
    (∀ x : Int, x ∈ (BSTree.ofList l).toList ↔ some x ∈ l) := by
  obtain ⟨h1, h2⟩ := ofList_go l .leaf Inv_leaf
  refine ⟨h1, fun x => ?_⟩
  rw [BSTree.ofList, h2 x]
  simp

/-- Constructed trees are reachable API states. -/
theorem ofList_reachable (l : List (Option Int)) : Reachable (BSTree.ofList l) := by
  rw [BSTree.ofList]
  have hgen : ∀ (t : Tree), Reachable t →
      Reachable (l.foldl (fun t v => (BSTree.insert t v).2) t) := by
    induction l with
    | nil => intro t h; exact h
    | cons v rest ih =>
      intro t h
      rw [List.foldl_cons]
      exact ih _ (Reachable.ins v h)
  exact hgen .leaf Reachable.empty

end BSTpy

namespace BSTpy

/-- A `False` return from `insert` leaves the tree unchanged. -/
theorem BSTree.insert_false (t : Tree) (v : Option Int)
    (h : (BSTree.insert t v).1 = false) : (BSTree.insert t v).2 = t := by
  cases v with
  | none => rfl
  | some w =>
    cases t with
    | leaf => simp [BSTree.insert] at h
    | node value bf l r =>
      simp only [BSTree.insert] at h ⊢
      cases h2 : (Tree.node value bf l r).insertN w with
      | error e => simp [h2]
      | ok u => rw [h2] at h; simp at h

/-- A `False` return from `delete` leaves the tree unchanged. -/
theorem BSTree.delete_false (t : Tree) (v : Option Int)
    (h : (BSTree.delete t v).1 = false) : (BSTree.delete t v).2 = t := by
  cases v with
  | none => rfl
  | some w =>
    cases t with
    | leaf => rfl
    | node value bf l r =>
      simp only [BSTree.delete] at h ⊢
      cases h2 : (Tree.node value bf l r).deleteN w with
      | error e => simp [h2]
      | ok u => rw [h2] at h; simp at h

/-- An `IndexError` out of `__setitem__` happens before any mutation. -/
theorem BSTree.setItem_err (t : Tree) (i : Int) (v : Option Int) (e : String)
    (h : (BSTree.setItem t i v).1 = .error e) : (BSTree.setItem t i v).2 = t := by
  simp only [BSTree.setItem] at h ⊢
  cases h2 : BSTree.getItem t i with
  | error e2 => simp [h2]
  | ok w => rw [h2] at h; simp at h

theorem getLoop_mem : ∀ (l : List Int) (k pos v : Int),
    BSTree.getLoop l k pos = some v → v ∈ l := by
  intro l
  induction l with
  | nil => intro k pos v h; simp [BSTree.getLoop] at h
  | cons a rest ih =>
    intro k pos v h
    simp only [BSTree.getLoop] at h
    split at h <;> split at h <;>
      first
        | (have h2 := Option.some.inj h
           subst h2
           exact List.mem_cons_self a rest)
        | exact List.mem_cons_of_mem _ (ih _ _ _ h)

/-- A successful `__getitem__` returns a value stored in the tree. -/
theorem getItem_ok_mem (t : Tree) (i : Int) (w : Int)
    (h : BSTree.getItem t i = .ok w) : w ∈ t.toList := by
  simp only [BSTree.getItem] at h
  cases h2 : BSTree.getLoop (if i < 0 then t.toListRev else t.toList) 0 i with
  | none => rw [h2] at h; simp at h
  | some v =>
    rw [h2] at h
    simp only [Except.ok.injEq] at h
    subst h
    have hmem := getLoop_mem _ _ _ _ h2
    by_cases hi : i < 0
    · rw [if_pos hi] at hmem
      rw [Tree.toListRev_eq, List.mem_reverse] at hmem
      exact hmem
    · rw [if_neg hi] at hmem
      exact hmem

/-- The value-set effect of a completed `__setitem__`: the rank-`i`
value is removed and the replacement (when not `None` ) inserted. -/
theorem BSTree.setItem_sets (t : Tree) (hI : Inv t) (i : Int) (a : Int)
    (hget : BSTree.getItem t i = .ok a) (v : Option Int) (x : Int) :
    (x ∈ (BSTree.setItem t i v).2.toList ↔
      ((x ∈ t.toList ∧ x ≠ a) ∨ (∃ w, v = some w ∧ x = w))) := by
  have ha : a ∈ t.toList := getItem_ok_mem t i a hget
  obtain ⟨t1, hdel, hIt1, hperm⟩ := BSTree.delete_mem t hI a ha
  have ht1mem : ∀ y : Int, y ∈ t1.toList ↔ (y ∈ t.toList ∧ y ≠ a) := by
    intro y
    constructor
    · intro hy
      refine ⟨hperm.mem_iff.mpr (List.mem_cons_of_mem _ hy), ?_⟩
      have hnd : (a :: t1.toList).Nodup := hperm.nodup_iff.mp hI.1.nodup
      intro he
      subst he
      exact (List.nodup_cons.mp hnd).1 hy
    · rintro ⟨hyt, hne⟩
      rcases List.mem_cons.mp (hperm.mem_iff.mp hyt) with h | h
      · exact absurd h hne
      · exact h
  simp only [BSTree.setItem, hget]
  rw [hdel]
  cases v with
  | none =>
    rw [BSTree.insert_none]
    simp only [ht1mem x]
    simp
  | some w =>
    by_cases hw : w ∈ t1.toList
    · rw [BSTree.insert_mem t1 hIt1 w hw]
      simp only [ht1mem x, Option.some.injEq]
      constructor
      · exact fun h => Or.inl h
      · rintro (h | ⟨w2, hw2, hxw⟩)
        · exact h
        · subst hw2
          subst hxw
          exact (ht1mem x).mp hw
    · obtain ⟨u, hins, hIu, hup⟩ := BSTree.insert_new t1 hIt1 w hw
      rw [hins]
      have hmemu : x ∈ u.toList ↔ x = w ∨ x ∈ t1.toList := by
        rw [hup.mem_iff]
        simp
      rw [hmemu]
      simp only [ht1mem x, Option.some.injEq]
      constructor
      · rintro (h | h)
        · exact Or.inr ⟨w, rfl, h⟩
        · exact Or.inl h
      · rintro (h | ⟨w2, hw2, hxw⟩)
        · exact Or.inr h
        · subst hw2
          subst hxw
          exact Or.inl rfl

end BSTpy

namespace BSTpy

/-- `rotate_left` on any node with a right child and correct balance
factors rebuilds correct balance factors from the old ones alone and
preserves the in-order traversal. -/
theorem rotate_left_correct (value bf : Int) (l : Tree) (bv bbf : Int)
    (bl br : Tree)
    (hc : (Tree.node value bf l (Tree.node bv bbf bl br)).bfCorrect = true) :
    ∃ u, (Tree.node value bf l (Tree.node bv bbf bl br)).rotate_left = .ok u ∧
      u.bfCorrect = true ∧
      u.toList = (Tree.node value bf l (Tree.node bv bbf bl br)).toList := by
  simp only [Tree.bfCorrect, Bool.and_eq_true, beq_iff_eq] at hc
  obtain ⟨⟨hbf, hlc⟩, ⟨⟨hbbf, hblc⟩, hbrc⟩⟩ := hc
  have h1 := l.height_ge
  have h2 := bl.height_ge
  have h3 := br.height_ge
  simp only [Tree.height_node] at hbf
  refine ⟨Tree.node bv (bbf - (1 - min (bf - (1 + max bbf 0)) 0))
      (Tree.node value (bf - (1 + max bbf 0)) l bl) br, rfl, ?_, ?_⟩
  · simp only [Tree.bfCorrect, Bool.and_eq_true, beq_iff_eq, Tree.height_node]
    exact ⟨⟨by omega, ⟨⟨by omega, hlc⟩, hblc⟩⟩, hbrc⟩
  · simp [List.append_assoc]

/-- `rotate_right` on any node with a left child and correct balance
factors rebuilds correct balance factors from the old ones alone and
preserves the in-order traversal. -/
theorem rotate_right_correct (value bf : Int) (bv bbf : Int) (bl br : Tree)
    (r : Tree)
    (hc : (Tree.node value bf (Tree.node bv bbf bl br) r).bfCorrect = true) :
    ∃ u, (Tree.node value bf (Tree.node bv bbf bl br) r).rotate_right = .ok u ∧
      u.bfCorrect = true ∧
      u.toList = (Tree.node value bf (Tree.node bv bbf bl br) r).toList := by
  simp only [Tree.bfCorrect, Bool.and_eq_true, beq_iff_eq] at hc
  obtain ⟨⟨hbf, ⟨⟨hbbf, hblc⟩, hbrc⟩⟩, hrc⟩ := hc
  have h1 := r.height_ge
  have h2 := bl.height_ge
  have h3 := br.height_ge
  simp only [Tree.height_node] at hbf
  refine ⟨Tree.node bv (bbf + (1 + max (bf + (1 - min bbf 0)) 0)) bl
      (Tree.node value (bf + (1 - min bbf 0)) br r), rfl, ?_, ?_⟩
  · simp only [Tree.bfCorrect, Bool.and_eq_true, beq_iff_eq, Tree.height_node]
    exact ⟨⟨by omega, hblc⟩, ⟨⟨by omega, hbrc⟩, hrc⟩⟩
  · simp [List.append_assoc]

end BSTpy

namespace BSTpy

/-- C1: building a tree from any list of pairwise-distinct (non-None,
mutually comparable) values and collecting the forward in-order
iteration yields exactly those values in strictly ascending order; and
every tree reached by an arbitrary sequence of insert/delete calls has
a strictly ascending in-order traversal. -/
theorem C1_build_sorted :
    (∀ l : List Int, l.Nodup →
      ((BSTree.ofList (l.map some)).toList.Perm l ∧
        List.Sorted (· < ·) (BSTree.ofList (l.map some)).toList)) ∧
    (∀ t : Tree, Reachable t → List.Sorted (· < ·) t.toList) := by
  constructor
  · intro l hnd
    obtain ⟨hI, hmem⟩ := ofList_spec (l.map some)
    refine ⟨?_, hI.1⟩
    apply List.perm_of_nodup_nodup_toFinset_eq hI.1.nodup hnd
    ext x
    simp only [List.mem_toFinset]
    rw [hmem x]
    simp
  · exact fun t h => (reachable_inv h).1

theorem C1_build_sorted_witness :
    (([2, 0, 1] : List Int).Nodup ∧
      ((BSTree.ofList ([2, 0, 1].map some)).toList.Perm [2, 0, 1] ∧
        List.Sorted (· < ·) (BSTree.ofList ([2, 0, 1].map some)).toList)) ∧
    List.Sorted (· < ·) (BSTree.ofList [some 4, some 2]).toList :=
  ⟨⟨by decide, C1_build_sorted.1 [2, 0, 1] (by decide)⟩,
    C1_build_sorted.2 _ (ofList_reachable [some 4, some 2])⟩

/-- C2: after any completed sequence of insert/delete operations, every
node's stored `bf` equals `height(right) - height(left)` recomputed
from scratch (absent subtree height `-1`), and `|bf| ≤ 1` everywhere. -/
theorem C2_bf_invariant : ∀ t : Tree, Reachable t →
    t.bfCorrect = true ∧ t.balancedB = true :=
  fun _ h => ⟨(reachable_inv h).2.1, (reachable_inv h).2.2⟩

theorem C2_bf_invariant_witness :
    (BSTree.ofList [some 3, some 1, some 2]).bfCorrect = true ∧
    (BSTree.ofList [some 3, some 1, some 2]).balancedB = true :=
  C2_bf_invariant _ (ofList_reachable [some 3, some 1, some 2])

/-- C3: on any node whose stored balance factors match the true height
differences, `rotate_left` (right child present) and `rotate_right`
(left child present) succeed, keep the in-order sequence, and rebuild
correct balance factors from the pre-rotation ones alone; the rotations
fail exactly when the required child is absent, and `balance()` never
reaches that failure when its entry invariants (`|bf| ≤ 2` with correct
factors and balanced children) hold. -/
theorem C3_rotations :
    (∀ (value bf : Int) (l : Tree) (bv bbf : Int) (bl br : Tree),
      (Tree.node value bf l (Tree.node bv bbf bl br)).bfCorrect = true →
      ∃ u, (Tree.node value bf l (Tree.node bv bbf bl br)).rotate_left = .ok u ∧
        u.bfCorrect = true ∧
        u.toList = (Tree.node value bf l (Tree.node bv bbf bl br)).toList) ∧
    (∀ (value bf bv bbf : Int) (bl br r : Tree),
      (Tree.node value bf (Tree.node bv bbf bl br) r).bfCorrect = true →
      ∃ u, (Tree.node value bf (Tree.node bv bbf bl br) r).rotate_right = .ok u ∧
        u.bfCorrect = true ∧
        u.toList = (Tree.node value bf (Tree.node bv bbf bl br) r).toList) ∧
    (∀ (value bf : Int) (l : Tree),
      (Tree.node value bf l Tree.leaf).rotate_left =
        .error "cannot left-rotate node without right child") ∧
    (∀ (value bf : Int) (r : Tree),
      (Tree.node value bf Tree.leaf r).rotate_right =
        .error "cannot right-rotate node without left child") ∧
    (∀ (value bf : Int) (l r : Tree), AvlT l → AvlT r →
      bf = r.height - l.height → bf.natAbs ≤ 2 →
      ∃ u, (Tree.node value bf l r).balance = .ok u) := by
  refine ⟨rotate_left_correct, rotate_right_correct,
    fun _ _ _ => rfl, fun _ _ _ => rfl, ?_⟩
  intro value bf l r hal har hbf hb2
  rcases (by omega : bf.natAbs ≤ 1 ∨ bf = -2 ∨ bf = 2) with h | h | h
  · exact ⟨_, Tree.balance_id value bf l r h⟩
  · obtain ⟨u, hu, _⟩ := balance_neg2 value bf l r hal har hbf h
    exact ⟨u, hu⟩
  · obtain ⟨u, hu, _⟩ := balance_pos2 value bf l r hal har hbf h
    exact ⟨u, hu⟩

theorem C3_rotations_witness :
    ((Tree.node 1 1 .leaf (Tree.node 2 0 .leaf .leaf)).bfCorrect = true ∧
      (∃ u, (Tree.node 1 1 .leaf (Tree.node 2 0 .leaf .leaf)).rotate_left = .ok u ∧
        u.bfCorrect = true ∧
        u.toList = (Tree.node 1 1 .leaf (Tree.node 2 0 .leaf .leaf)).toList)) ∧
    ((Tree.node 3 (-1) (Tree.node 2 0 .leaf .leaf) .leaf).bfCorrect = true ∧
      (∃ u, (Tree.node 3 (-1) (Tree.node 2 0 .leaf .leaf) .leaf).rotate_right
          = .ok u ∧
        u.bfCorrect = true ∧
        u.toList = (Tree.node 3 (-1) (Tree.node 2 0 .leaf .leaf) .leaf).toList)) ∧
    ((Tree.node 1 0 .leaf .leaf).rotate_left =
      .error "cannot left-rotate node without right child") ∧
    ((Tree.node 1 0 .leaf .leaf).rotate_right =
      .error "cannot right-rotate node without left child") ∧
    (∃ u, (Tree.node 5 (-2)
        (Tree.node 4 (-1) (Tree.node 3 0 .leaf .leaf) .leaf) .leaf).balance
      = .ok u) :=
  ⟨⟨by decide, C3_rotations.1 1 1 .leaf 2 0 .leaf .leaf (by decide)⟩,
    ⟨by decide, C3_rotations.2.1 3 (-1) 2 0 .leaf .leaf .leaf (by decide)⟩,
    C3_rotations.2.2.1 1 0 .leaf,
    C3_rotations.2.2.2.1 1 0 .leaf,
    C3_rotations.2.2.2.2 5 (-2)
      (Tree.node 4 (-1) (Tree.node 3 0 .leaf .leaf) .leaf) .leaf
      ⟨rfl, rfl⟩ ⟨rfl, rfl⟩ (by decide) (by decide)⟩

/-- C5: `insert` returns `False` exactly on `None` or a present value
(and then changes nothing, so a second identical insert is a no-op),
otherwise `True` with the value present afterwards; `delete` returns
`False` exactly on `None` or an absent value (and then changes
nothing), otherwise `True` with the value absent afterwards. -/
theorem C5_result_contract : ∀ t : Tree, Reachable t →
    (∀ v : Option Int,
      ((BSTree.insert t v).1 = false ↔
        (v = none ∨ ∃ w, v = some w ∧ w ∈ t.toList)) ∧
      ((BSTree.insert t v).1 = false → (BSTree.insert t v).2 = t) ∧
      ((BSTree.delete t v).1 = false ↔
        (v = none ∨ ∃ w, v = some w ∧ w ∉ t.toList)) ∧
      ((BSTree.delete t v).1 = false → (BSTree.delete t v).2 = t)) ∧
    (∀ w : Int,
      ((BSTree.insert t (some w)).1 = true →
        w ∈ (BSTree.insert t (some w)).2.toList) ∧
      ((BSTree.delete t (some w)).1 = true →
        w ∉ (BSTree.delete t (some w)).2.toList) ∧
      (BSTree.insert (BSTree.insert t (some w)).2 (some w)).2
        = (BSTree.insert t (some w)).2) := by
  intro t hr
  have hI := reachable_inv hr
  constructor
  · intro v
    refine ⟨?_, BSTree.insert_false t v, ?_, BSTree.delete_false t v⟩
    · constructor
      · intro hf
        cases v with
        | none => exact Or.inl rfl
        | some w =>
          by_cases hw : w ∈ t.toList
          · exact Or.inr ⟨w, rfl, hw⟩
          · obtain ⟨u, hins, _, _⟩ := BSTree.insert_new t hI w hw
            rw [hins] at hf
            simp at hf
      · rintro (rfl | ⟨w, rfl, hw⟩)
        · rfl
        · rw [BSTree.insert_mem t hI w hw]
    · constructor
      · intro hf
        cases v with
        | none => exact Or.inl rfl
        | some w =>
          by_cases hw : w ∈ t.toList
          · obtain ⟨u, hdel, _, _⟩ := BSTree.delete_mem t hI w hw
            rw [hdel] at hf
            simp at hf
          · exact Or.inr ⟨w, rfl, hw⟩
      · rintro (rfl | ⟨w, rfl, hw⟩)
        · rfl
        · rw [BSTree.delete_not_mem t hI w hw]
  · intro w
    refine ⟨?_, ?_, ?_⟩
    · intro ht
      by_cases hw : w ∈ t.toList
      · rw [BSTree.insert_mem t hI w hw] at ht
        simp at ht
      · obtain ⟨u, hins, _, hup⟩ := BSTree.insert_new t hI w hw
        rw [hins]
        exact hup.mem_iff.mpr (List.mem_cons_self _ _)
    · intro ht
      by_cases hw : w ∈ t.toList
      · obtain ⟨u, hdel, hIu, hdp⟩ := BSTree.delete_mem t hI w hw
        rw [hdel]
        have hnd : (w :: u.toList).Nodup := hdp.nodup_iff.mp hI.1.nodup
        exact (List.nodup_cons.mp hnd).1
      · rw [BSTree.delete_not_mem t hI w hw] at ht
        simp at ht
    · by_cases hw : w ∈ t.toList
      · have h2 : (BSTree.insert t (some w)).2 = t := by
          rw [BSTree.insert_mem t hI w hw]
        rw [h2, BSTree.insert_mem t hI w hw]
      · obtain ⟨u, hins, hIu, hup⟩ := BSTree.insert_new t hI w hw
        have h2 : (BSTree.insert t (some w)).2 = u := by rw [hins]
        rw [h2,
          BSTree.insert_mem u hIu w (hup.mem_iff.mpr (List.mem_cons_self _ _))]

theorem C5_result_contract_witness :
    (BSTree.insert (BSTree.ofList [some 1, some 2]) (some 1)).1 = false ∧
    (BSTree.insert (BSTree.ofList [some 1, some 2]) (some 1)).2
      = BSTree.ofList [some 1, some 2] := by
  have h := C5_result_contract (BSTree.ofList [some 1, some 2])
    (ofList_reachable [some 1, some 2])
  have h1 : (BSTree.insert (BSTree.ofList [some 1, some 2]) (some 1)).1 = false :=
    (h.1 (some 1)).1.mpr (Or.inr ⟨1, rfl, by decide⟩)
  exact ⟨h1, (h.1 (some 1)).2.1 h1⟩

/-- C6: inserting a fresh comparable value and then deleting it again
restores the previous value set (stated as equality of the sorted
in-order traversals). -/
theorem C6_roundtrip : ∀ (t : Tree) (v : Int), Reachable t → v ∉ t.toList →
    (BSTree.delete (BSTree.insert t (some v)).2 (some v)).2.toList = t.toList := by
  intro t v hr hv
  have hI := reachable_inv hr
  obtain ⟨u, hins, hIu, hup⟩ := BSTree.insert_new t hI v hv
  rw [show (BSTree.insert t (some v)).2 = u from by rw [hins]]
  have hvmem : v ∈ u.toList := hup.mem_iff.mpr (List.mem_cons_self _ _)
  obtain ⟨u2, hdel, hIu2, hdp⟩ := BSTree.delete_mem u hIu v hvmem
  rw [show (BSTree.delete u (some v)).2 = u2 from by rw [hdel]]
  exact sorted_perm_eq (hdp.symm.trans hup).cons_inv hIu2.1 hI.1

theorem C6_roundtrip_witness :
    (5 : Int) ∉ (BSTree.ofList [some 1, some 9]).toList ∧
    (BSTree.delete (BSTree.insert (BSTree.ofList [some 1, some 9]) (some 5)).2
        (some 5)).2.toList = (BSTree.ofList [some 1, some 9]).toList :=
  ⟨by decide, C6_roundtrip _ 5 (ofList_reachable [some 1, some 9]) (by decide)⟩

/-- C7: the membership test agrees with occurrence in the in-order
traversal on every reachable tree (it is a pure iterative descent by
order comparisons, so it neither fails nor mutates). -/
theorem C7_contains : ∀ (t : Tree) (v : Int), Reachable t →
    (BSTree.contains t v = true ↔ v ∈ t.toList) :=
  fun t v h => contains_iff t (reachable_inv h).1 v

theorem C7_contains_witness :
    BSTree.contains (BSTree.ofList [some 1, some 3]) 3 = true ↔
      (3 : Int) ∈ (BSTree.ofList [some 1, some 3]).toList :=
  C7_contains _ 3 (ofList_reachable [some 1, some 3])

/-- C9: deleting the value of a node with two children replaces it with
the in-order predecessor (`find_max` of the left subtree) and deletes
that predecessor from the left subtree (the defining recursion); on the
spec's concrete scenario (insert 5, 3, 8, 1, 4 then delete 5) the root
value becomes 4, the traversal is 1, 3, 4, 8, and `|bf| ≤ 1` holds
everywhere. -/
theorem C9_two_child_delete :
    (∀ (value bf : Int) (l r : Tree), l ≠ .leaf → r ≠ .leaf →
      (Tree.node value bf l r).deleteN value =
        (l.deleteN l.find_max).bind fun l2 =>
          (Tree.node l.find_max
            (if Tree.shrankCond l.bfOf l2 then bf + 1 else bf) l2 r).balance) ∧
    ((BSTree.delete (BSTree.ofList [some 5, some 3, some 8, some 1, some 4])
        (some 5)).2.valueOf = 4 ∧
      (BSTree.delete (BSTree.ofList [some 5, some 3, some 8, some 1, some 4])
        (some 5)).2.toList = [1, 3, 4, 8] ∧
      (BSTree.delete (BSTree.ofList [some 5, some 3, some 8, some 1, some 4])
        (some 5)).2.balancedB = true) := by
  constructor
  · intro value bf l r hnl hnr
    cases l with
    | leaf => exact absurd rfl hnl
    | node lv lbf ll lr =>
      cases r with
      | leaf => exact absurd rfl hnr
      | node rv rbf rl rr =>
        rw [Tree.deleteN.eq_def]
        simp [lt_irrefl]
  · exact ⟨rfl, rfl, rfl⟩

theorem C9_two_child_delete_witness :
    (Tree.node 1 0 (Tree.node 0 0 .leaf .leaf) (Tree.node 2 0 .leaf .leaf)
        ).deleteN 1 =
      ((Tree.node 0 0 .leaf .leaf).deleteN (Tree.node 0 0 .leaf .leaf).find_max
        ).bind fun l2 =>
        (Tree.node (Tree.node 0 0 .leaf .leaf).find_max
          (if Tree.shrankCond (Tree.node 0 0 .leaf .leaf).bfOf l2 then 0 + 1
            else 0) l2 (Tree.node 2 0 .leaf .leaf)).balance :=
  C9_two_child_delete.1 1 0 (Tree.node 0 0 .leaf .leaf)
    (Tree.node 2 0 .leaf .leaf) (by decide) (by decide)

/-- C10: constructing a tree from an iterable containing duplicates or
`None` entries succeeds and silently skips them: the result is sorted
and holds exactly the distinct non-`None` values of the iterable. -/
theorem C10_constructor : ∀ (l : List (Option Int)),
    List.Sorted (· < ·) (BSTree.ofList l).toList ∧
    (∀ x : Int, x ∈ (BSTree.ofList l).toList ↔ some x ∈ l) :=
  fun l => ⟨(ofList_spec l).1.1, (ofList_spec l).2⟩

end BSTpy

namespace BSTpy

/-- C4 counterexample: on the reachable singleton tree {0} (built by a
single insert), `set(0, None)` reports no failure, yet it neither
leaves the tree unchanged nor produces a tree holding the replacement
value (no tree stores `None`): the tree silently shrinks to empty, so
the operation is not "replace rank-0 with v or change nothing". -/
theorem C4_counterexample :
    (BSTree.setItem (BSTree.ofList [some 0]) 0 none).1 = .ok () ∧
    (BSTree.setItem (BSTree.ofList [some 0]) 0 none).2 ≠ BSTree.ofList [some 0] ∧
    (BSTree.setItem (BSTree.ofList [some 0]) 0 none).2 = Tree.leaf ∧
    ¬ ∃ w : Int, (none : Option Int) = some w := by
  refine ⟨rfl, by decide, rfl, ?_⟩
  rintro ⟨w, hw⟩
  cases hw

/-- C4 (amended): every operation that reports failure leaves the tree
unchanged (insert/delete returning false; `__setitem__` raising
IndexError before mutating; `__getitem__` and `index` are pure), and a
completed `set(i, v)` on a valid index removes the rank-`i` value and,
when `v` is a non-None value `w`, adds `w`: with `v = None` the
replacement insert is silently rejected and the tree only shrinks. -/
theorem C4_failure_atomicity :
    (∀ (t : Tree) (v : Option Int),
      (BSTree.insert t v).1 = false → (BSTree.insert t v).2 = t) ∧
    (∀ (t : Tree) (v : Option Int),
      (BSTree.delete t v).1 = false → (BSTree.delete t v).2 = t) ∧
    (∀ (t : Tree) (i : Int) (v : Option Int) (e : String),
      (BSTree.setItem t i v).1 = .error e → (BSTree.setItem t i v).2 = t) ∧
    (∀ (t : Tree) (i a w : Int), Reachable t →
      BSTree.getItem t i = .ok a →
      ∀ x : Int, (x ∈ (BSTree.setItem t i (some w)).2.toList ↔
        ((x ∈ t.toList ∧ x ≠ a) ∨ x = w))) ∧
    (∀ (t : Tree) (i a : Int), Reachable t →
      BSTree.getItem t i = .ok a →
      ∀ x : Int, (x ∈ (BSTree.setItem t i none).2.toList ↔
        (x ∈ t.toList ∧ x ≠ a))) := by
  refine ⟨BSTree.insert_false, BSTree.delete_false, BSTree.setItem_err, ?_, ?_⟩
  · intro t i a w hr hget x
    rw [BSTree.setItem_sets t (reachable_inv hr) i a hget (some w) x]
    simp
  · intro t i a hr hget x
    rw [BSTree.setItem_sets t (reachable_inv hr) i a hget none x]
    simp

theorem C4_failure_atomicity_witness :
    BSTree.getItem (BSTree.ofList [some 1, some 2]) 0 = .ok 1 ∧
    ((5 : Int) ∈ (BSTree.setItem (BSTree.ofList [some 1, some 2]) 0
        (some 5)).2.toList ↔
      (((5 : Int) ∈ (BSTree.ofList [some 1, some 2]).toList ∧ (5 : Int) ≠ 1) ∨
        (5 : Int) = 5)) :=
  ⟨rfl, C4_failure_atomicity.2.2.2.1 (BSTree.ofList [some 1, some 2]) 0 1 5
    (ofList_reachable [some 1, some 2]) rfl 5⟩

/-- C8: positional access: a non-negative index below the length
returns the value of that rank in the forward traversal, a negative
index `i` with `-n ≤ i` returns the value of rank `n + i` (found via
the reverse traversal), and every other index -- including every index
on the empty tree -- raises IndexError. -/
theorem C8_positional_access : ∀ (t : Tree) (i : Int),
    (0 ≤ i → i < (t.toList.length : Int) →
      BSTree.getItem t i = .ok (t.toList.getD i.toNat 0)) ∧
    (i < 0 → -(t.toList.length : Int) ≤ i →
      BSTree.getItem t i
        = .ok (t.toList.getD ((t.toList.length : Int) + i).toNat 0)) ∧
    (((t.toList.length : Int) ≤ i ∨ i < -(t.toList.length : Int)) →
      BSTree.getItem t i = .error "binary search tree index out of range") := by
  intro t i
  refine ⟨?_, ?_, ?_⟩
  · intro h0 hlt
    have hc : ¬ i < 0 := by omega
    simp only [BSTree.getItem, if_neg hc]
    rw [getLoop_nonneg _ 0 i h0, if_neg (by omega : ¬ i < 0), sub_zero]
    have hlen : i.toNat < t.toList.length := by omega
    rw [List.get?_eq_get hlen, List.getD_eq_get?, List.get?_eq_get hlen]
    rfl
  · intro hneg hge
    simp only [BSTree.getItem, if_pos hneg]
    rw [Tree.toListRev_eq, getLoop_neg _ 0 i hneg, if_neg (by omega), sub_zero]
    have hlen : (-1 - i).toNat < t.toList.length := by omega
    rw [List.get?_reverse hlen]
    have harith : t.toList.length - 1 - (-1 - i).toNat
        = ((t.toList.length : Int) + i).toNat := by omega
    rw [harith]
    have hlen2 : ((t.toList.length : Int) + i).toNat < t.toList.length := by
      omega
    rw [List.get?_eq_get hlen2, List.getD_eq_get?, List.get?_eq_get hlen2]
    rfl
  · intro hout
    rcases hout with h | h
    · have hc : ¬ i < 0 := by omega
      simp only [BSTree.getItem, if_neg hc]
      rw [getLoop_nonneg _ 0 i (by omega), if_neg (by omega), sub_zero,
        List.get?_eq_none.mpr (by omega)]
    · have hneg : i < 0 := by omega
      simp only [BSTree.getItem, if_pos hneg]
      rw [Tree.toListRev_eq, getLoop_neg _ 0 i hneg, if_neg (by omega), sub_zero,
        List.get?_eq_none.mpr (by simp only [List.length_reverse]; omega)]

theorem C8_positional_access_witness :
    BSTree.getItem (BSTree.ofList [some 1, some 3]) (-1)
      = .ok ((BSTree.ofList [some 1, some 3]).toList.getD
          (((BSTree.ofList [some 1, some 3]).toList.length : Int) + -1).toNat 0) :=
  (C8_positional_access (BSTree.ofList [some 1, some 3]) (-1)).2.1 (by decide)
    (by decide)

end BSTpy
